import Mathlib

/-!
# Verification of the yabai command-routing core

Shallow embedding of the yabai chat-bot framework's command-matching and
dispatch engine: the schema validator (`src/validator/index.ts`), the
pattern compiler and registration API, the middleware engine
(`src/core/command.ts`, `MiddlewareEngine`) and the dispatch loop
(`Yabai.handle` in the router source).

JavaScript values are modelled by `JVal`; machine behaviour that the
claims do not touch (the transport socket, message serialization,
QR-code rendering) is abstracted: a reply is recorded as an event,
the raw transport message is an opaque `JVal`.
-/

set_option autoImplicit false

namespace Yab

/-- A JavaScript runtime value, restricted to the fragment the router and
validator manipulate.  `vundef`/`vnull` are JavaScript `undefined`/`null`. -/
inductive JVal where
  | vundef
  | vnull
  | vbool (b : Bool)
  | vnum (n : Int)
  | vstr (s : String)
  | vobj (fields : List (String × JVal))
  | varr (elems : List JVal)

/-- JavaScript truthiness for the modelled fragment
(objects and arrays are always truthy). -/
def jsTruthy : JVal → Bool
  | .vundef => false
  | .vnull => false
  | .vbool b => b
  | .vnum n => n != 0
  | .vstr s => s ≠ ""
  | .vobj _ => true
  | .varr _ => true

/-- Whether a value is JavaScript `undefined` (the `=== undefined`
test). -/
def isUndef : JVal → Bool
  | .vundef => true
  | _ => false

theorem isUndef_iff (v : JVal) : isUndef v = true ↔ v = .vundef := by
  cases v <;> simp [isUndef]

/-- Property access `o[key]` on a plain object represented as an insertion
ordered association list: a missing property reads as `undefined`. -/
def jsGet : List (String × JVal) → String → JVal
  | [], _ => .vundef
  | (k, v) :: rest, key => if k = key then v else jsGet rest key

/-- Property assignment `o[key] = v`: overwrite in place if the key is
present, append otherwise (JavaScript insertion order). -/
def jsSet (fields : List (String × JVal)) (key : String) (v : JVal) :
    List (String × JVal) :=
  match fields with
  | [] => [(key, v)]
  | (k, w) :: rest =>
      if k = key then (k, v) :: rest else (k, w) :: jsSet rest key v

/-- The numeric value of a decimal digit string. -/
def decNat (cs : List Char) : Nat :=
  cs.foldl (fun a c => a * 10 + (c.toNat - 48)) 0

/-- Strip leading and trailing whitespace from a character list
(`String.prototype.trim`). -/
def wsTrim (cs : List Char) : List Char :=
  ((cs.dropWhile Char.isWhitespace).reverse.dropWhile Char.isWhitespace).reverse

/-- `Number(value)` coercion, modelled on the fragment of inputs the router
produces (strings captured from messages, `undefined`, `null`, numbers).
`none` stands for `NaN`.  Only optionally-signed decimal digit strings are
given a numeric meaning; other strings coerce to `NaN`. -/
def jsToNumber : JVal → Option Int
  | .vundef => none
  | .vnull => some 0
  | .vbool b => some (if b then 1 else 0)
  | .vnum n => some n
  | .vstr s =>
      match wsTrim s.data with
      | [] => some 0
      | c :: rest =>
          if (c :: rest).all Char.isDigit then
            some (Int.ofNat (decNat (c :: rest)))
          else if c = Char.ofNat 45 ∧ rest ≠ [] ∧ rest.all Char.isDigit then
            some (-(Int.ofNat (decNat rest)))
          else none
  | .vobj _ => none
  | .varr _ => none

/-! ## Schema validator (`src/validator/index.ts`) -/

/-- One element of a `ValidationError` issue path: an object key or an
array index. -/
inductive PathElem where
  | k (s : String)
  | i (n : Nat)
  deriving DecidableEq, Repr

/-- One `{message, path}` issue carried by a `ValidationError`. -/
structure Issue where
  message : String
  path : List PathElem
  deriving DecidableEq, Repr

/-- The literal argument of `t.literal` (`string | number | boolean`). -/
inductive LitVal where
  | s (v : String)
  | n (v : Int)
  | b (v : Bool)
  deriving DecidableEq, Repr

/-- A schema value (`YabaiType`).  Wrapper variants (`opt`, `nullable`,
`dflt`, `refine`) compose around an inner schema like the corresponding
classes `YabaiOptional`, `YabaiNullable`, `YabaiDefault`, `YabaiRefine`.
An object schema (`YabaiObject`) carries its insertion-ordered field
record; that record is represented here as a chain of `fcons` cells
ending in `fnil` (a representation artefact of the embedding: the source
stores a plain record object; the chain cells only ever appear as the
`shape` argument of `obj`).  The `array`/`union` variants of the source
are not modelled: no claim exercises them. -/
inductive Schema where
  | num
  | str (maxLen minLen : Option Nat)
  | bool
  | lit (v : LitVal)
  | obj (shape : Schema) (strict : Bool)
  | fnil
  | fcons (key : String) (field : Schema) (rest : Schema)
  | opt (inner : Schema)
  | nullable (inner : Schema)
  | dflt (inner : Schema) (value : JVal)
  | refine (inner : Schema) (pred : JVal → Bool) (msg : String)

/-- Build a shape chain from an association list of field schemas. -/
def ofShape : List (String × Schema) → Schema
  | [] => .fnil
  | (k, s) :: rest => .fcons k s (ofShape rest)

/-- The keys of a shape chain, in insertion order (`Object.keys(shape)`). -/
def shapeKeys : Schema → List String
  | .fcons k _ rest => k :: shapeKeys rest
  | _ => []

/-- The shape chain as an association list. -/
def shapeToList : Schema → List (String × Schema)
  | .fcons k s rest => (k, s) :: shapeToList rest
  | _ => []

/-- `_def.optional` of a schema.  The wrapper classes spread the inner
definition record and `YabaiOptional` sets the flag, so the flag survives
further wrapping. -/
def Schema.defOptional : Schema → Bool
  | .opt _ => true
  | .nullable inner => inner.defOptional
  | .dflt inner _ => inner.defOptional
  | .refine inner _ _ => inner.defOptional
  | _ => false

/-- `_def.nullable` of a schema (spread through wrappers like
`defOptional`). -/
def Schema.defNullable : Schema → Bool
  | .nullable _ => true
  | .opt inner => inner.defNullable
  | .dflt inner _ => inner.defNullable
  | .refine inner _ _ => inner.defNullable
  | _ => false

/-- `_def.defaultValue` of a schema (`none` models the JavaScript check
`defaultValue !== undefined` failing). -/
def Schema.defDefault : Schema → Option JVal
  | .dflt _ v => some v
  | .opt inner => inner.defDefault
  | .nullable inner => inner.defDefault
  | .refine inner _ _ => inner.defDefault
  | _ => none

/-- `_def.shape` of a schema: present on object schemas and, because the
wrappers spread the inner `_def`, on any wrapper chain around one. -/
def Schema.defShape : Schema → Option Schema
  | .obj shape _ => some shape
  | .opt inner => inner.defShape
  | .nullable inner => inner.defShape
  | .dflt inner _ => inner.defShape
  | .refine inner _ _ => inner.defShape
  | _ => none

/-- `t.literal(expected).parse`'s equality test (`value !== expected` on
primitives). -/
def LitVal.matches : LitVal → JVal → Bool
  | .s v, .vstr w => v = w
  | .n v, .vnum w => v = w
  | .b v, .vbool w => v = w
  | _, _ => false

/-- Prefix every issue path of a nested failure with the failing key
(`path: [key, ...issue.path]`). -/
def prefixIssues (key : String) (issues : List Issue) : List Issue :=
  issues.map fun iss => { iss with path := .k key :: iss.path }

/-- Read an object value's field list (used to thread the accumulated
`parsed` record through the shape chain). -/
def asObjFields : JVal → List (String × JVal)
  | .vobj fields => fields
  | _ => []

/-- `YabaiType.parse`: succeeds with the parsed value or fails with the
issue list a thrown `ValidationError` would carry.  The `fnil`/`fcons`
cases implement `YabaiObject.parse`'s `for (const key in shape)` loop
with its per-key `try`/`catch`: they walk the shape chain against the
`data` object, returning `.ok` of the accumulated `parsed` record when
every key succeeded, and the concatenated per-key issue lists otherwise. -/
def Schema.parse : Schema → JVal → Except (List Issue) JVal
  | .num, v =>
      match jsToNumber v with
      | some n => .ok (.vnum n)
      | none => .error [⟨"Expected a number", []⟩]
  | .str maxLen minLen, v =>
      match v with
      | .vstr s =>
          if minLen.isSome ∧ s.length < minLen.getD 0 then
            .error [⟨"String too short, min " ++ toString (minLen.getD 0) ++ " characters", []⟩]
          else if maxLen.isSome ∧ s.length > maxLen.getD 0 then
            .error [⟨"String too long, max " ++ toString (maxLen.getD 0) ++ " characters", []⟩]
          else .ok (.vstr s)
      | _ => .error [⟨"Expected a string", []⟩]
  | .bool, v =>
      match v with
      | .vbool b => .ok (.vbool b)
      | _ => .error [⟨"Expected a boolean", []⟩]
  | .lit lv, v =>
      if lv.matches v then .ok v
      else .error [⟨"Expected literal value", []⟩]
  | .obj shape strict, v =>
      match v with
      | .vobj data =>
          let unknownIssues :=
            if strict then
              ((data.map Prod.fst).filter (fun k => ¬ (shapeKeys shape).contains k)).map
                (fun k => (⟨"Unknown property " ++ k, [.k k]⟩ : Issue))
            else []
          match shape.parse (.vobj data) with
          | .ok parsedV =>
              if unknownIssues.isEmpty then .ok (.vobj (asObjFields parsedV))
              else .error unknownIssues
          | .error fieldIssues => .error (unknownIssues ++ fieldIssues)
      | _ => .error [⟨"Expected an object", []⟩]
  | .fnil, _ => .ok (.vobj [])
  | .fcons key s rest, dataV =>
      let v := jsGet (asObjFields dataV) key
      let (here, issuesHere) :=
        match v, s.defOptional with
        | .vundef, true =>
            match s.defDefault with
            | some dv => ([(key, dv)], ([] : List Issue))
            | none => ([(key, .vundef)], [])
        | _, _ =>
            match v, s.defNullable with
            | .vnull, true => ([(key, JVal.vnull)], [])
            | _, _ =>
                match s.parse v with
                | .ok pv => ([(key, pv)], [])
                | .error iss => ([], prefixIssues key iss)
      match rest.parse dataV with
      | .ok restV =>
          if issuesHere.isEmpty then .ok (.vobj (here ++ asObjFields restV))
          else .error issuesHere
      | .error issuesRest => .error (issuesHere ++ issuesRest)
  | .opt inner, v =>
      match v with
      | .vundef => .ok .vundef
      | _ => inner.parse v
  | .nullable inner, v =>
      match v with
      | .vnull => .ok .vnull
      | _ => inner.parse v
  | .dflt inner dv, v =>
      match v with
      | .vundef => .ok dv
      | _ => inner.parse v
  | .refine inner pred msg, v =>
      match inner.parse v with
      | .ok pv => if pred pv then .ok pv else .error [⟨msg, []⟩]
      | .error iss => .error iss

/-! ## Pattern compiler (`Yabai.cmd`, string-pattern branch)

The source builds a regular-expression source string by concatenating,
for each whitespace-separated pattern part, a separator (`\s+`, empty for
the first part) and either an escaped literal, a named capture
(`(?<name>.+)` for the last part, `(?<name>[^\s]+)` otherwise), or — for
optional parts — a non-capturing optional group `(?:<sep><capture>)?`.
The embedding builds the same string and, in parallel, a small syntax
tree (`Piece` list) whose matching semantics below model the JavaScript
regular-expression engine on exactly this fragment. -/

/-- An atomic element of a compiled string pattern. -/
inductive Atom where
  | sepWS
  | litPart (s : String)
  | capGreedy (name : String)
  | capWord (name : String)
  deriving Repr

/-- One concatenated piece of a compiled string pattern: a bare atom or a
non-capturing optional group `(?:...)?` wrapping a run of atoms. -/
inductive Piece where
  | atom (a : Atom)
  | optGroup (atoms : List Atom)
  deriving Repr

/-- The characters escaped by `escapeRegExp`
(`/[.*+?^${}()|[\]\\]/g`). -/
def regexSpecials : List Char :=
  ['.', '*', '+', '?', '^', '$', Char.ofNat 123, Char.ofNat 125,
   '(', ')', '|', '[', ']', '\\']

/-- `escapeRegExp` from `src/utils/index.ts`: backslash-escape every
regular-expression metacharacter. -/
def escapeRegExp (s : String) : String :=
  String.mk (s.data.flatMap fun c =>
    if regexSpecials.contains c then ['\\', c] else [c])

/-- The regular-expression source text of an atom. -/
def renderAtom : Atom → String
  | .sepWS => "\\s+"
  | .litPart s => escapeRegExp s
  | .capGreedy name => "(?<" ++ name ++ ">.+)"
  | .capWord name => "(?<" ++ name ++ ">[^\\s]+)"

/-- The regular-expression source text of a run of atoms. -/
def renderAtoms : List Atom → String
  | [] => ""
  | a :: rest => renderAtom a ++ renderAtoms rest

/-- The regular-expression source text of a piece. -/
def renderPiece : Piece → String
  | .atom a => renderAtom a
  | .optGroup atoms => "(?:" ++ renderAtoms atoms ++ ")?"

/-- The regular-expression source text of a compiled pattern body. -/
def renderPieces : List Piece → String
  | [] => ""
  | p :: rest => renderPiece p ++ renderPieces rest

/-- `pattern.split(/\s+/).filter(Boolean)`: the whitespace-separated
parts of a string pattern. -/
def splitWS (s : String) : List String :=
  go s.data []
where
  go : List Char → List Char → List String
    | [], acc => if acc.isEmpty then [] else [String.mk acc.reverse]
    | c :: cs, acc =>
        if c.isWhitespace then
          if acc.isEmpty then go cs [] else String.mk acc.reverse :: go cs []
        else go cs (c :: acc)

/-- The `optional/default/nullable` test applied to a field definition
(`fieldDef.defaultValue !== undefined || fieldDef.optional === true ||
fieldDef.nullable === true`). -/
def isOptionalish (s : Schema) : Bool :=
  s.defDefault.isSome || s.defOptional || s.defNullable

/-- Whether the args schema marks the named field
optional/defaulted/nullable (the compiler's schema lookup for a `:name`
segment without an explicit `?`). -/
def schemaFieldOptional (args : Option Schema) (name : String) : Bool :=
  match args with
  | some a =>
      match a.defShape with
      | some shape =>
          match (shapeToList shape).lookup name with
          | some propSchema => isOptionalish propSchema
          | none => false
      | none => false
  | none => false

/-- Compile one pattern part.  `first` is true for the first part (empty
separator), `isLast` selects the greedy capture.  Mirrors one iteration
of the compilation loop in `Yabai.cmd`. -/
def segPieces (args : Option Schema) (first isLast : Bool) (part : String) :
    List Piece :=
  if part.data.head? = some ':' then
    let rawCs := part.data.tail
    let explicitQuestion := rawCs.getLast? = some '?'
    let paramName := String.mk (if explicitQuestion then rawCs.dropLast else rawCs)
    let isOptional := explicitQuestion || schemaFieldOptional args paramName
    let capture := if isLast then Atom.capGreedy paramName
                   else Atom.capWord paramName
    if isOptional then
      [.optGroup ((if first then [] else [Atom.sepWS]) ++ [capture])]
    else
      (if first then [] else [Piece.atom .sepWS]) ++ [.atom capture]
  else
    (if first then [] else [Piece.atom .sepWS]) ++ [.atom (.litPart part)]

/-- Compile a list of pattern parts (the whole loop of the string-pattern
branch): the final part is compiled with `isLast = true`. -/
def compileSeg (args : Option Schema) : Bool → List String → List Piece
  | _, [] => []
  | first, [part] => segPieces args first true part
  | first, part :: next :: rest =>
      segPieces args first false part ++ compileSeg args false (next :: rest)

/-- Strip the `/^\^|\$$/g` anchors from a regular-expression source (one
leading `^`, one trailing `$`). -/
def stripAnchors (src : String) : String :=
  let cs := match src.data with
    | '^' :: rest => rest
    | other => other
  String.mk (match cs.getLast? with
    | some '$' => cs.dropLast
    | _ => cs)

/-- The source form of a command pattern (`string | RegExp`). -/
inductive PatSrc where
  | str (s : String)
  | re (source : String) (flags : String)

/-- JavaScript truthiness of an `originalPattern` value: an empty pattern
string is falsy, a `RegExp` object is always truthy. -/
def patTruthy : PatSrc → Bool
  | .str s => s ≠ ""
  | .re _ _ => true

/-- A compiled command matcher: for string patterns both the piece list
(given semantics below) and the regular-expression source text built by
the source code; raw regular-expression patterns keep only their rebuilt
source — their matching semantics are outside the modelled fragment (no
claim dispatches a raw-regex command). -/
inductive CompiledPat where
  | ofPieces (pieces : List Piece) (src : String)
  | ofRaw (src : String) (flags : String)

/-- The regular-expression source text of a compiled matcher. -/
def CompiledPat.src : CompiledPat → String
  | .ofPieces _ s => s
  | .ofRaw s _ => s

/-- Compile a pattern against the active prefix, mirroring the tail of
`Yabai.cmd`: `finalPattern = new RegExp('^' + prefixSource + separator +
body + '$')` with `separator = '\s+'` exactly when both the prefix source
and the body are non-empty. -/
def compilePattern (pre : String) (args : Option Schema) : PatSrc → CompiledPat
  | .str pattern =>
      let prefixSource := escapeRegExp pre
      let bodyPieces := compileSeg args true (splitWS pattern)
      let regexString := renderPieces bodyPieces
      let separator := if prefixSource ≠ "" ∧ regexString ≠ "" then "\\s+" else ""
      .ofPieces
        ((if pre ≠ "" then [Piece.atom (.litPart pre)] else []) ++
          (if separator ≠ "" then [Piece.atom .sepWS] else []) ++ bodyPieces)
        ("^" ++ prefixSource ++ separator ++ regexString ++ "$")
  | .re source flags =>
      let prefixSource := escapeRegExp pre
      let separator := if prefixSource ≠ "" ∧ source ≠ "" then "\\s+" else ""
      .ofRaw ("^" ++ prefixSource ++ separator ++ stripAnchors source ++ "$") flags

/-! ### Matching semantics of compiled string patterns

A backtracking matcher for the compiled fragment, with JavaScript's
greedy preference order: a quantifier prefers consuming more, an
optional group prefers being present, and the first preference under
which the remainder of the (end-anchored) pattern matches wins. -/

/-- Whether `.` matches a character (any character except a line
terminator; the pattern is compiled without the `s` flag). -/
def dotMatches (c : Char) : Bool :=
  c.toNat ≠ 10 ∧ c.toNat ≠ 13 ∧ c.toNat ≠ 0x2028 ∧ c.toNat ≠ 0x2029

/-- `n, n-1, ..., 1`: candidate consumption lengths for a greedy `+`
quantifier, in preference order. -/
def descRange : Nat → List Nat
  | 0 => []
  | n + 1 => (n + 1) :: descRange n

/-- The length of the maximal prefix run satisfying `p`. -/
def countWhile (p : Char → Bool) (cs : List Char) : Nat :=
  (cs.takeWhile p).length

/-- All ways an atom can match a prefix of the input, in greedy
preference order, each with the captures it produces and the remaining
input. -/
def atomCandidates : Atom → List Char →
    List (List (String × String) × List Char)
  | .sepWS, cs =>
      (descRange (countWhile Char.isWhitespace cs)).map fun k => ([], cs.drop k)
  | .litPart s, cs =>
      if s.data.isPrefixOf cs then [([], cs.drop s.data.length)] else []
  | .capGreedy name, cs =>
      (descRange (countWhile dotMatches cs)).map fun k =>
        ([(name, String.mk (cs.take k))], cs.drop k)
  | .capWord name, cs =>
      (descRange (countWhile (fun c => ¬ c.isWhitespace) cs)).map fun k =>
        ([(name, String.mk (cs.take k))], cs.drop k)

/-- All ways a run of atoms can match a prefix of the input, in
preference order. -/
def matchAtomsAll : List Atom → List Char →
    List (List (String × String) × List Char)
  | [], cs => [([], cs)]
  | a :: rest, cs =>
      (atomCandidates a cs).flatMap fun pr =>
        (matchAtomsAll rest pr.2).map fun pr2 => (pr.1 ++ pr2.1, pr2.2)

/-- Match a piece list against the entire input (the pattern is anchored
on both sides); returns the captures of the first full match in
preference order, `none` if the pattern does not match. -/
def matchPieces : List Piece → List Char → Option (List (String × String))
  | [], cs => if cs.isEmpty then some [] else none
  | .atom a :: ps, cs =>
      (atomCandidates a cs).findSome? fun pr =>
        (matchPieces ps pr.2).map (pr.1 ++ ·)
  | .optGroup atoms :: ps, cs =>
      match (matchAtomsAll atoms cs).findSome? (fun pr =>
          (matchPieces ps pr.2).map (pr.1 ++ ·)) with
      | some r => some r
      | none => matchPieces ps cs

/-- The named groups declared by an atom. -/
def atomNames : Atom → List String
  | .capGreedy name => [name]
  | .capWord name => [name]
  | _ => []

/-- The named groups declared by a compiled pattern body, in order. -/
def pieceNames : List Piece → List String
  | [] => []
  | .atom a :: ps => atomNames a ++ pieceNames ps
  | .optGroup atoms :: ps => atoms.flatMap atomNames ++ pieceNames ps

/-- `pattern.exec(body)`'s `groups` object: on a match, every declared
named group appears as a key, holding the captured string or `undefined`
for a group that did not participate. -/
def regexExec (cp : CompiledPat) (body : String) :
    Option (List (String × JVal)) :=
  match cp with
  | .ofPieces pieces _ =>
      (matchPieces pieces body.data).map fun caps =>
        (pieceNames pieces).map fun n =>
          (n, match caps.lookup n with
              | some s => JVal.vstr s
              | none => JVal.vundef)
  | .ofRaw _ _ => none

/-! ## Middleware engine, hooks, router state

User-supplied functions (hooks, middleware, handlers) are modelled as
pure functions from the dispatch context to an outcome: a possibly
updated context (JavaScript callees mutate the `ctx` object), a list of
observable events they emitted themselves (e.g. replies sent through
`msg.reply`), and either a returned value or a thrown error. -/

/-- A lifecycle hook name (`HOOK_NAMES` in `core/types`). -/
inductive HookName where
  | request
  | parse
  | transform
  | afterResponse
  | pairing
  deriving DecidableEq, Repr

/-- Observable dispatch events.  Engine-emitted events are tagged with
the index of the command being processed (an embedding artefact used to
state trace properties); `replied` records a `msg.reply` call. -/
inductive Ev where
  | hookRun (kind : HookName) (idx : Nat)
  | beforeMw (cmdIdx mwIdx : Nat)
  | handlerRun (cmdIdx : Nat)
  | afterMw (cmdIdx mwIdx : Nat)
  | errCaught (cmdIdx : Nat)
  | errorMw (cmdIdx mwIdx : Nat)
  | replied (text : String)
  deriving DecidableEq, Repr

/-- An error thrown during one message's dispatch: a `ValidationError`
from `schema.parse`, or an arbitrary user-code throw. -/
inductive Err where
  | validation (issues : List Issue)
  | user (tag : String)
  deriving DecidableEq, Repr

/-- The per-dispatch context (`CommandContext`).  `msg` is abstracted:
replies appear as `Ev.replied` events. -/
structure Ctx where
  raw : JVal
  params : JVal
  result : JVal
  status : Nat

/-- The outcome of invoking one user-supplied function on the context:
the possibly mutated context, the replies the function sent itself
through `msg.reply`, and a returned value or thrown error.  (Replies are
the only observable action user code can take in the modelled fragment;
engine-internal events cannot be produced by user code.) -/
structure FnOut where
  replies : List String := []
  ctx : Ctx
  out : Except Err JVal

/-- The events for a user function's own replies. -/
def userEvs (o : FnOut) : List Ev :=
  o.replies.map .replied

/-- A before/after middleware function (the `next` continuation passed by
the engine is a no-op, so it is not modelled). -/
def Middleware : Type := Ctx → FnOut

/-- An error-middleware function; it receives `{error, ctx}`. -/
def ErrorHandler : Type := Err → Ctx → FnOut

/-- A command handler. -/
def Handler : Type := Ctx → FnOut

/-- A lifecycle hook function. -/
def Hook : Type := Ctx → FnOut

/-- The `MiddlewareEngine` of `core/command.ts`: three ordered handler
lists.  The source's `IMiddlewares` interface has the same shape and is
modelled by the same structure. -/
structure MiddlewareEngine where
  beforeHandle : List Middleware := []
  afterHandle : List Middleware := []
  error : List ErrorHandler := []

/-- `new MiddlewareEngine()`. -/
def MiddlewareEngine.empty : MiddlewareEngine := {}

/-- `merge`: a new engine whose lists are concatenations (originals are
not mutated). -/
def MiddlewareEngine.merge (e other : MiddlewareEngine) : MiddlewareEngine :=
  { beforeHandle := e.beforeHandle ++ other.beforeHandle
    afterHandle := e.afterHandle ++ other.afterHandle
    error := e.error ++ other.error }

/-- `MiddlewareEngine.mergeAll` applied to the two arguments the router
passes (the instance's global engine and the per-call option lists). -/
def MiddlewareEngine.mergeAll (a b : MiddlewareEngine) : MiddlewareEngine :=
  MiddlewareEngine.empty.merge a |>.merge b

/-- The generic fallback returned by `executeError` when no error handler
claims the error. -/
def internalErrorSentinel : JVal :=
  .vobj [("text", .vstr "Internal server error"), ("status", .vnum 500)]

/-- The loop of `executeBefore`: run each handler in order; the first
truthy return short-circuits and becomes the result; a throw propagates.
`tag`/`i` tag the emitted events with command and middleware indices. -/
def runBeforeList : List Middleware → Nat → Nat → Ctx →
    List Ev × Ctx × Except Err (Option JVal)
  | [], _, _, ctx => ([], ctx, .ok none)
  | fn :: rest, tag, i, ctx =>
      let o := fn ctx
      match o.out with
      | .error e => (Ev.beforeMw tag i :: userEvs o, o.ctx, .error e)
      | .ok v =>
          if jsTruthy v then (Ev.beforeMw tag i :: userEvs o, o.ctx, .ok (some v))
          else
            let r := runBeforeList rest tag (i + 1) o.ctx
            (Ev.beforeMw tag i :: userEvs o ++ r.1, r.2.1, r.2.2)

/-- `executeBefore(ctx)`. -/
def MiddlewareEngine.executeBefore (e : MiddlewareEngine) (tag : Nat)
    (ctx : Ctx) : List Ev × Ctx × Except Err (Option JVal) :=
  runBeforeList e.beforeHandle tag 0 ctx

/-- The loop of `executeAfter` (same short-circuit shape as
`executeBefore`; its return value is not consulted by the dispatcher). -/
def runAfterList : List Middleware → Nat → Nat → Ctx →
    List Ev × Ctx × Except Err (Option JVal)
  | [], _, _, ctx => ([], ctx, .ok none)
  | fn :: rest, tag, i, ctx =>
      let o := fn ctx
      match o.out with
      | .error e => (Ev.afterMw tag i :: userEvs o, o.ctx, .error e)
      | .ok v =>
          if jsTruthy v then (Ev.afterMw tag i :: userEvs o, o.ctx, .ok (some v))
          else
            let r := runAfterList rest tag (i + 1) o.ctx
            (Ev.afterMw tag i :: userEvs o ++ r.1, r.2.1, r.2.2)

/-- `executeAfter(ctx, result)`: sets `ctx.result = result`, then runs
the after-handlers. -/
def MiddlewareEngine.executeAfter (e : MiddlewareEngine) (tag : Nat)
    (ctx : Ctx) (result : JVal) : List Ev × Ctx × Except Err (Option JVal) :=
  runAfterList e.afterHandle tag 0 { ctx with result := result }

/-- The loop of `executeError`: each handler gets `{error, ctx}`; the
first truthy return wins; if none claims the error the generic sentinel
is returned.  A throw from an error handler itself is not caught
anywhere and propagates. -/
def runErrorList : List ErrorHandler → Nat → Nat → Ctx → Err →
    List Ev × Ctx × Except Err JVal
  | [], _, _, ctx, _ => ([], ctx, .ok internalErrorSentinel)
  | fn :: rest, tag, i, ctx, e =>
      let o := fn e ctx
      match o.out with
      | .error e2 => (Ev.errorMw tag i :: userEvs o, o.ctx, .error e2)
      | .ok v =>
          if jsTruthy v then (Ev.errorMw tag i :: userEvs o, o.ctx, .ok v)
          else
            let r := runErrorList rest tag (i + 1) o.ctx e
            (Ev.errorMw tag i :: userEvs o ++ r.1, r.2.1, r.2.2)

/-- `executeError(ctx, error)`. -/
def MiddlewareEngine.executeError (e : MiddlewareEngine) (tag : Nat)
    (ctx : Ctx) (err : Err) : List Ev × Ctx × Except Err JVal :=
  runErrorList e.error tag 0 ctx err

/-- The hook registry (`HookRecord`): one ordered handler list per hook
name. -/
structure HookRecord where
  request : List Hook := []
  parse : List Hook := []
  transform : List Hook := []
  afterResponse : List Hook := []
  pairing : List Hook := []

/-- Read one hook list. -/
def HookRecord.get : HookRecord → HookName → List Hook
  | h, .request => h.request
  | h, .parse => h.parse
  | h, .transform => h.transform
  | h, .afterResponse => h.afterResponse
  | h, .pairing => h.pairing

/-- Append a hook to one list (the `local`-scope arm of `on`). -/
def HookRecord.push : HookRecord → HookName → Hook → HookRecord
  | h, .request, fn => { h with request := h.request ++ [fn] }
  | h, .parse, fn => { h with parse := h.parse ++ [fn] }
  | h, .transform, fn => { h with transform := h.transform ++ [fn] }
  | h, .afterResponse, fn => { h with afterResponse := h.afterResponse ++ [fn] }
  | h, .pairing, fn => { h with pairing := h.pairing ++ [fn] }

/-- `cloneRecordOfArrays` from `src/utils/index.ts`: a record with fresh
copies of every array. -/
def cloneRecordOfArrays (h : HookRecord) : HookRecord :=
  ⟨h.request, h.parse, h.transform, h.afterResponse, h.pairing⟩

/-- The loop of `executeHooks`: run the hooks of one kind in order; a
thrown error is caught and logged and the loop continues; the first
truthy return value is returned, skipping the remaining hooks of this
kind. -/
def runHooks (kind : HookName) : List Hook → Nat → Ctx →
    List Ev × Ctx × Option JVal
  | [], _, ctx => ([], ctx, none)
  | fn :: rest, i, ctx =>
      let o := fn ctx
      match o.out with
      | .error _ =>
          let r := runHooks kind rest (i + 1) o.ctx
          (Ev.hookRun kind i :: userEvs o ++ r.1, r.2.1, r.2.2)
      | .ok v =>
          if jsTruthy v then (Ev.hookRun kind i :: userEvs o, o.ctx, some v)
          else
            let r := runHooks kind rest (i + 1) o.ctx
            (Ev.hookRun kind i :: userEvs o ++ r.1, r.2.1, r.2.2)

/-! ## Router instance, registration API (`Yabai`) -/

/-- `SCOPE_TYPES`. -/
inductive Scope where
  | LOCAL
  | SCOPED
  | GLOBAL
  deriving DecidableEq, Repr

/-- The router configuration fragment the claims touch (`scope` and the
configured prefix; auth/qr/pairing options drive the transport, which is
outside the model). -/
structure YabaiConfig where
  scope : Scope := .LOCAL
  prefixStr : String := ""

/-- Per-registration options (`CmdOptions`), with the single-function
shorthand already coerced to one-element lists as `cmd`/`hears` do. -/
structure CmdOptions where
  args : Option Schema := none
  description : Option String := none
  beforeHandle : List Middleware := []
  afterHandle : List Middleware := []
  error : List ErrorHandler := []

/-- A registered command (`CommandDef`). -/
structure Command where
  predicate : Option (JVal → Bool) := none
  originalPattern : Option PatSrc := none
  pattern : Option CompiledPat := none
  handler : Handler
  args : Option Schema := none
  middleware : MiddlewareEngine := {}
  options : CmdOptions := {}

/-- `ConfigError`: authoring-time misuse, raised synchronously at
registration and never caught by the dispatcher. -/
structure ConfigError where
  message : String
  deriving DecidableEq, Repr

/-- The router/bot instance.  The parent/children tree is used only for
`scoped`/`global` hook propagation, which no claim exercises, so it is
not modelled; `sock` records whether a transport socket has been
assigned. -/
structure Yabai where
  config : YabaiConfig := {}
  middleware : MiddlewareEngine := {}
  commands : List Command := []
  prefixStack : List String
  hooks : HookRecord := {}
  sock : Bool := false

/-- The constructor: `prefixStack = [config.prefix]` (the `enableHelp`
auto-command is not modelled; no claim exercises it). -/
def Yabai.init (config : YabaiConfig := {}) : Yabai :=
  { config := config, prefixStack := [config.prefixStr] }

/-- `get currentPrefix(): this.prefixStack[0] || ''`. -/
def Yabai.currentPref (y : Yabai) : String :=
  match y.prefixStack with
  | p :: _ => p
  | [] => ""

/-- The ambient-state snapshot taken by `group`. -/
structure YabaiSnapshot where
  prefixList : List String
  middleware : MiddlewareEngine
  hooks : HookRecord

/-- `createStateSnapshot`. -/
def Yabai.createStateSnapshot (y : Yabai) : YabaiSnapshot :=
  { prefixList := y.prefixStack
    middleware := MiddlewareEngine.empty.merge y.middleware
    hooks := cloneRecordOfArrays y.hooks }

/-- `restoreState`. -/
def Yabai.restoreState (y : Yabai) (s : YabaiSnapshot) : Yabai :=
  { y with
    prefixStack := s.prefixList
    middleware := s.middleware
    hooks := cloneRecordOfArrays s.hooks }

/-- `[a, b].filter(Boolean).join(sep)`. -/
def joinNonEmpty (sep : String) (parts : List String) : String :=
  go (parts.filter (· ≠ ""))
where
  go : List String → String
    | [] => ""
    | [x] => x
    | x :: y :: rest => x ++ sep ++ go (y :: rest)

/-- `onBeforeHandle`: append to the instance's own engine. -/
def Yabai.onBeforeHandle (y : Yabai) (fn : Middleware) : Yabai :=
  { y with middleware :=
      { y.middleware with beforeHandle := y.middleware.beforeHandle ++ [fn] } }

/-- `onAfterHandle`. -/
def Yabai.onAfterHandle (y : Yabai) (fn : Middleware) : Yabai :=
  { y with middleware :=
      { y.middleware with afterHandle := y.middleware.afterHandle ++ [fn] } }

/-- `onError`. -/
def Yabai.onError (y : Yabai) (fn : ErrorHandler) : Yabai :=
  { y with middleware :=
      { y.middleware with error := y.middleware.error ++ [fn] } }

/-- `on(hookName, fn)` on an instance with `local` scope (the
`scoped`/`global` arms walk the parent/children tree, which is outside
the modelled fragment; no claim exercises them). -/
def Yabai.onLocalHook (y : Yabai) (kind : HookName) (fn : Hook) : Yabai :=
  { y with hooks := y.hooks.push kind fn }

/-- `group(prefix, fn, {sep})`: compose the new prefix, push it, snapshot
`{prefixStack, middleware, hooks}` (the snapshot is taken after the
push, as in the source), run the callback, and — when the callback
returns rather than throws — restore the snapshot. -/
def Yabai.group (y : Yabai) (pre : String)
    (fn : Yabai → Except ConfigError Yabai) (sep : String := " ") :
    Except ConfigError Yabai :=
  let existing := if y.currentPref ≠ "" then y.currentPref else ""
  let newPre := joinNonEmpty sep [existing, pre]
  let y1 := { y with prefixStack := newPre :: y.prefixStack }
  let snap := y1.createStateSnapshot
  match fn y1 with
  | .error e => .error e
  | .ok y2 => .ok (y2.restoreState snap)

/-- The ordering scan of `cmd`: walk the shape keys in insertion order
and report the first required (non-optional/default/nullable) key that
follows an optional-ish one. -/
def firstOrderViolation : List (String × Schema) → Bool → Option String
  | [], _ => none
  | (k, s) :: rest, seenOptionalish =>
      if isOptionalish s then firstOrderViolation rest true
      else if seenOptionalish then some k
      else firstOrderViolation rest seenOptionalish

/-- The registration-time check of `cmd`: applies only when the resolved
args schema exposes a `_def.shape`. -/
def checkShapeOrder (args : Option Schema) : Option String :=
  match args with
  | some a =>
      match a.defShape with
      | some shape => firstOrderViolation (shapeToList shape) false
      | none => none
  | none => none

/-- `cmd(pattern, ...)` with the overloads already resolved (the source
sniffs the argument types at run time: a schema-like second argument
becomes `args`, a function becomes the handler, a string becomes a
literal auto-reply handler; `args` may also come from `options.args`).
Performs the shape-ordering check, merges the instance's global
middleware with the per-call option lists, compiles the pattern against
the active prefix and appends the command. -/
def Yabai.cmd (y : Yabai) (pattern : PatSrc) (args : Option Schema)
    (handler : Handler) (options : CmdOptions := {}) :
    Except ConfigError Yabai :=
  match checkShapeOrder args with
  | some key =>
      .error ⟨"Invalid args schema: property " ++ key ++
        " is required but follows an optional/default/nullable property"⟩
  | none =>
      let mw : MiddlewareEngine :=
        { beforeHandle := options.beforeHandle
          afterHandle := options.afterHandle
          error := options.error }
      .ok { y with commands := y.commands ++
        [{ originalPattern := some pattern
           pattern := some (compilePattern y.currentPref args pattern)
           handler := handler
           args := args
           middleware := MiddlewareEngine.mergeAll y.middleware mw
           options := options }] }

/-- The literal auto-reply handler `cmd` builds for a string second
argument (`async ({msg}) => { await msg.reply(a) }`). -/
def literalHandler (text : String) : Handler :=
  fun ctx => ⟨[text], ctx, .ok .vundef⟩

/-- `hears(predicate, handler, options)`: stores a predicate over the
raw transport message instead of a pattern; no `originalPattern`, no
compiled pattern, no args schema. -/
def Yabai.hears (y : Yabai) (predicate : JVal → Bool) (handler : Handler)
    (options : CmdOptions := {}) : Yabai :=
  let mw : MiddlewareEngine :=
    { beforeHandle := options.beforeHandle
      afterHandle := options.afterHandle
      error := options.error }
  { y with commands := y.commands ++
    [{ predicate := some predicate
       handler := handler
       middleware := MiddlewareEngine.mergeAll y.middleware mw
       options := options }] }

/-- A `use` plugin: another router instance, a plain function, or an
object with an `install` method. -/
inductive Plugin where
  | inst (p : Yabai)
  | fnP (f : Yabai → Except ConfigError Yabai)
  | installP (f : Yabai → Except ConfigError Yabai)

/-- `use(plugin, {prefix})`: wrap registration in `group(prefix, ...)`.
For a router-instance plugin, re-register each of its commands that has
a truthy `originalPattern`, but only when the plugin's scope is `local`;
the copied command carries the plugin command's middleware lists as
per-call options. -/
def Yabai.use (y : Yabai) (plugin : Plugin) (pre : String := "") :
    Except ConfigError Yabai :=
  y.group pre fun self =>
    match plugin with
    | .inst p =>
        p.commands.foldlM
          (fun acc c =>
            match c.originalPattern with
            | some op =>
                if patTruthy op then
                  if p.config.scope = Scope.LOCAL then
                    acc.cmd op none c.handler
                      { beforeHandle := c.middleware.beforeHandle
                        afterHandle := c.middleware.afterHandle
                        error := c.middleware.error }
                  else .ok acc
                else .ok acc
            | none => .ok acc)
          self
    | .fnP f => f self
    | .installP f => f self

/-! ## Dispatch (`Yabai.handle`) -/

/-- An inbound message as the transport callback delivers it. -/
structure InMsg where
  body : String
  raw : JVal

/-- The fresh per-dispatch context built at the top of `handle`. -/
def initCtx (raw : JVal) : Ctx :=
  { raw := raw, params := .vobj [], result := .vnull, status := 200 }

/-- The nullable fill-in of `handle`: for every shape field whose capture
read back `undefined` and whose definition is flagged nullable, assign
`null` to `ctx.params[key]`. -/
def fillNullable : List (String × Schema) → List (String × JVal) →
    List (String × JVal)
  | [], params => params
  | (key, s) :: rest, params =>
      fillNullable rest
        (match jsGet params key, s.defNullable with
         | .vundef, true => jsSet params key .vnull
         | _, _ => params)

/-- Whether a command matches an inbound message: its compiled pattern
executed against the body, or its predicate applied to the raw message
(matching is independent of the context). -/
def cmdMatches (c : Command) (body : String) (raw : JVal) : Bool :=
  match c.pattern with
  | some pat => (regexExec pat body).isSome
  | none =>
      match c.predicate with
      | some p => p raw
      | none => false

/-- The result of one `handle` call: the observable events, the final
context, and `.error` exactly when an exception escapes `handle`. -/
structure DispatchOut where
  evs : List Ev
  ctx : Ctx
  res : Except Err Unit

/-- The tail of the `try` block after a successful (or absent) schema
parse: `executeBefore` (a truthy result is stored, auto-replied when a
string, and ends dispatch), the handler, `executeAfter`, the string
auto-reply of the handler result, and the `afterResponse` hooks. -/
def tryBodyCore (hooks : HookRecord) (c : Command) (idx : Nat) (ctx : Ctx) :
    List Ev × Ctx × Option Err :=
  let b := c.middleware.executeBefore idx ctx
  let bevs := b.1
  match b.2.2 with
  | .error e => (bevs, b.2.1, some e)
  | .ok (some v) =>
      let ctx := { b.2.1 with result := v }
      (match v with
       | .vstr s => (bevs ++ [.replied s], ctx, none)
       | _ => (bevs, ctx, none))
  | .ok none =>
      let o := c.handler b.2.1
      match o.out with
      | .error e => (bevs ++ Ev.handlerRun idx :: userEvs o, o.ctx, some e)
      | .ok result =>
          let ctx := { o.ctx with result := result }
          let a := c.middleware.executeAfter idx ctx result
          match a.2.2 with
          | .error e =>
              (bevs ++ Ev.handlerRun idx :: userEvs o ++ a.1, a.2.1, some e)
          | .ok _ =>
              let replyEvs : List Ev :=
                match result with
                | .vstr s => if s ≠ "" then [.replied s] else []
                | _ => []
              let h := runHooks .afterResponse hooks.afterResponse 0 a.2.1
              (bevs ++ Ev.handlerRun idx :: userEvs o ++ a.1 ++ replyEvs ++
                h.1, h.2.1, none)

/-- The `try` block run for the first matching command: schema parse
(a thrown `ValidationError` ends the block), then `tryBodyCore`.
Returns the thrown error, if any, for the `catch` to route. -/
def tryBody (hooks : HookRecord) (c : Command) (idx : Nat) (ctx : Ctx) :
    List Ev × Ctx × Option Err :=
  match c.args with
  | some a =>
      match a.parse ctx.params with
      | .error iss => ([], ctx, some (.validation iss))
      | .ok parsed => tryBodyCore hooks c idx { ctx with params := parsed }
  | none => tryBodyCore hooks c idx ctx

/-- Process the first matching command: run the `try` block and route a
thrown error to the command's `executeError`; an error thrown by an
error handler itself propagates. -/
def runMatched (hooks : HookRecord) (c : Command) (idx : Nat) (ctx : Ctx) :
    List Ev × Ctx × Except Err Unit :=
  let t := tryBody hooks c idx ctx
  match t.2.2 with
  | none => (t.1, t.2.1, .ok ())
  | some e =>
      let r := c.middleware.executeError idx t.2.1 e
      match r.2.2 with
      | .ok _ => (t.1 ++ Ev.errCaught idx :: r.1, r.2.1, .ok ())
      | .error e2 => (t.1 ++ Ev.errCaught idx :: r.1, r.2.1, .error e2)

/-- The parameter record stored into `ctx.params` on a pattern match:
the named groups, with the nullable fill-in applied when the command's
args schema exposes a shape. -/
def dispatchParams (c : Command) (groups : List (String × JVal)) :
    List (String × JVal) :=
  match c.args with
  | some a =>
      match a.defShape with
      | some shape => fillNullable (shapeToList shape) groups
      | none => groups
  | none => groups

/-- The match phase for one command: execute the compiled pattern
against the body (on a match, store the captured parameters into the
context), or invoke the predicate on the raw message. -/
def matchStep (c : Command) (ctx : Ctx) (body : String) (raw : JVal) :
    Bool × Ctx :=
  match c.pattern with
  | some pat =>
      match regexExec pat body with
      | some groups => (true, { ctx with params := .vobj (dispatchParams c groups) })
      | none => (false, ctx)
  | none =>
      match c.predicate with
      | some p => (p raw, ctx)
      | none => (false, ctx)

/-- The command loop of `handle`: iterate the registry in registration
order; process the first match and stop. -/
def runCmds (hooks : HookRecord) : List Command → Nat → Ctx → String →
    JVal → List Ev × Ctx × Except Err Unit
  | [], _, ctx, _, _ => ([], ctx, .ok ())
  | c :: rest, idx, ctx, body, raw =>
      let step := matchStep c ctx body raw
      if step.1 then runMatched hooks c idx step.2
      else runCmds hooks rest (idx + 1) step.2 body raw

/-- `handle(message)`: bail out silently when no socket is attached;
otherwise build the context, run the `request`, `parse` and `transform`
hooks in that order (their results are discarded), then run the command
loop. -/
def Yabai.handle (y : Yabai) (message : InMsg) : DispatchOut :=
  if y.sock = false then ⟨[], initCtx message.raw, .ok ()⟩
  else
    let r1 := runHooks .request y.hooks.request 0 (initCtx message.raw)
    let r2 := runHooks .parse y.hooks.parse 0 r1.2.1
    let r3 := runHooks .transform y.hooks.transform 0 r2.2.1
    let r4 := runCmds y.hooks y.commands 0 r3.2.1 message.body message.raw
    ⟨r1.1 ++ r2.1 ++ r3.1 ++ r4.1, r4.2.1, r4.2.2⟩

/-! ## Inspection helpers used to state the claims -/

/-- The command index an engine-emitted event is tagged with (`none` for
hook events and replies, which are not tied to one command). -/
def evTag : Ev → Option Nat
  | .beforeMw t _ => some t
  | .handlerRun t => some t
  | .afterMw t _ => some t
  | .errCaught t => some t
  | .errorMw t _ => some t
  | _ => none

/-- The named captures of a compiled atom, with their greediness
(`true` for `.+`, `false` for `[^\s]+`). -/
def capsOfAtom : Atom → List (String × Bool)
  | .capGreedy n => [(n, true)]
  | .capWord n => [(n, false)]
  | _ => []

/-- The named captures of a compiled pattern body, in order, each with
its greediness. -/
def capsOf (pieces : List Piece) : List (String × Bool) :=
  pieces.flatMap fun
    | .atom a => capsOfAtom a
    | .optGroup atoms => atoms.flatMap capsOfAtom

/-- Compilation of a run of parts none of which is in last position
(used to restate `compileSeg` on a decomposed part list). -/
def compileMid (args : Option Schema) : Bool → List String → List Piece
  | _, [] => []
  | first, part :: rest => segPieces args first false part ++ compileMid args false rest

/-- The parameter name of a `:name` part (the leading colon and one
trailing `?` removed). -/
def paramNameOf (part : String) : String :=
  String.mk (if part.data.tail.getLast? = some '?' then part.data.tail.dropLast
             else part.data.tail)

/-- Whether a `:name` part carries the explicit `?` optionality marker. -/
def explicitQOf (part : String) : Bool :=
  part.data.tail.getLast? = some '?'

/-- A hook that leaves the context untouched, sends nothing, and returns
`v`. -/
def pureHook (v : JVal) : Hook :=
  fun ctx => ⟨[], ctx, .ok v⟩

/-- The issues one declared key contributes to an object parse,
evaluated independently of every other key (the specification's
"collect-all" reading of the key loop): the optional/undefined and
nullable/null short-circuits contribute nothing; otherwise the field
schema's own failure, its paths prefixed with the key. -/
def fieldIssuesOf (data : List (String × JVal)) : String × Schema → List Issue
  | (key, s) =>
      match jsGet data key, s.defOptional with
      | .vundef, true => []
      | _, _ =>
          match jsGet data key, s.defNullable with
          | .vnull, true => []
          | _, _ =>
              match s.parse (jsGet data key) with
              | .ok _ => []
              | .error iss => prefixIssues key iss

/-- The `parsed` entries one declared key contributes to an object
parse, evaluated independently. -/
def fieldParsedOf (data : List (String × JVal)) : String × Schema → List (String × JVal)
  | (key, s) =>
      match jsGet data key, s.defOptional with
      | .vundef, true =>
          match s.defDefault with
          | some dv => [(key, dv)]
          | none => [(key, .vundef)]
      | _, _ =>
          match jsGet data key, s.defNullable with
          | .vnull, true => [(key, .vnull)]
          | _, _ =>
              match s.parse (jsGet data key) with
              | .ok pv => [(key, pv)]
              | .error _ => []

/-- The strict-mode issues for the input keys not declared by the shape,
one per unknown key, in input order. -/
def unknownIssuesOf (strict : Bool) (shapeL : List (String × Schema))
    (data : List (String × JVal)) : List Issue :=
  if strict then
    ((data.map Prod.fst).filter
      (fun k => ¬ (shapeL.map Prod.fst).contains k)).map
      (fun k => (⟨"Unknown property " ++ k, [.k k]⟩ : Issue))
  else []

/-- The command `use` re-registers on the host for a local-scope plugin
command: pattern recompiled under the composed prefix, the handler
carried over, the plugin command's middleware lists re-merged behind the
host's global middleware, no args schema. -/
def copyCmd (curPref : String) (globalMw : MiddlewareEngine) (c : Command) :
    Command :=
  match c.originalPattern with
  | some op =>
      let options : CmdOptions :=
        { beforeHandle := c.middleware.beforeHandle
          afterHandle := c.middleware.afterHandle
          error := c.middleware.error }
      { originalPattern := some op
        pattern := some (compilePattern curPref none op)
        handler := c.handler
        args := none
        middleware := MiddlewareEngine.mergeAll globalMw
          { beforeHandle := options.beforeHandle
            afterHandle := options.afterHandle
            error := options.error }
        options := options }
  | none => c

/-! ## Shared lemmas about the dispatch loop -/

theorem matchStep_fst (c : Command) (ctx : Ctx) (body : String) (raw : JVal) :
    (matchStep c ctx body raw).1 = cmdMatches c body raw := by
  cases hp : c.pattern with
  | some pat =>
      cases he : regexExec pat body <;> simp [matchStep, cmdMatches, hp, he]
  | none =>
      cases hq : c.predicate <;> simp [matchStep, cmdMatches, hp, hq]

theorem matchStep_snd_of_not {c : Command} {body : String} {raw : JVal}
    (ctx : Ctx) (h : cmdMatches c body raw = false) :
    (matchStep c ctx body raw).2 = ctx := by
  cases hp : c.pattern with
  | some pat =>
      cases he : regexExec pat body with
      | some g =>
          exfalso
          have hT : cmdMatches c body raw = true := by
            simp [cmdMatches, hp, he]
          rw [h] at hT
          cases hT
      | none => simp [matchStep, hp, he]
  | none => cases hq : c.predicate <;> simp [matchStep, hp, hq]

theorem runCmds_cons_match {c : Command} {body : String} {raw : JVal}
    (hooks : HookRecord) (rest : List Command) (idx : Nat) (ctx : Ctx)
    (h : cmdMatches c body raw = true) :
    runCmds hooks (c :: rest) idx ctx body raw =
      runMatched hooks c idx (matchStep c ctx body raw).2 := by
  simp [runCmds, matchStep_fst, h]

theorem runCmds_cons_nomatch {c : Command} {body : String} {raw : JVal}
    (hooks : HookRecord) (rest : List Command) (idx : Nat) (ctx : Ctx)
    (h : cmdMatches c body raw = false) :
    runCmds hooks (c :: rest) idx ctx body raw =
      runCmds hooks rest (idx + 1) ctx body raw := by
  simp [runCmds, matchStep_fst, h, matchStep_snd_of_not ctx h]

theorem runCmds_stop {body : String} {raw : JVal}
    (hooks : HookRecord) (pre : List Command) (c : Command)
    (post : List Command) (idx : Nat) (ctx : Ctx)
    (hpre : ∀ c' ∈ pre, cmdMatches c' body raw = false)
    (hc : cmdMatches c body raw = true) :
    runCmds hooks (pre ++ c :: post) idx ctx body raw =
      runCmds hooks (pre ++ [c]) idx ctx body raw := by
  induction pre generalizing idx ctx with
  | nil =>
      simp only [List.nil_append]
      rw [runCmds_cons_match hooks post idx ctx hc,
        runCmds_cons_match hooks [] idx ctx hc]
  | cons a pre ih =>
      have ha := hpre a (List.mem_cons_self a pre)
      simp only [List.cons_append]
      rw [runCmds_cons_nomatch hooks _ idx ctx ha,
        runCmds_cons_nomatch hooks _ idx ctx ha]
      exact ih (idx + 1) ctx (fun c' hc' => hpre c' (List.mem_cons_of_mem a hc'))

theorem runCmds_no_match {body : String} {raw : JVal}
    (hooks : HookRecord) (cs : List Command) (idx : Nat) (ctx : Ctx)
    (h : ∀ c ∈ cs, cmdMatches c body raw = false) :
    runCmds hooks cs idx ctx body raw = ([], ctx, .ok ()) := by
  induction cs generalizing idx with
  | nil => simp [runCmds]
  | cons c rest ih =>
      rw [runCmds_cons_nomatch hooks rest idx ctx (h c (List.mem_cons_self c rest))]
      exact ih (idx + 1) (fun c' hc' => h c' (List.mem_cons_of_mem c hc'))

theorem userEvs_tag {o : FnOut} {e : Ev} (he : e ∈ userEvs o) :
    evTag e = none := by
  unfold userEvs at he
  obtain ⟨s, _, rfl⟩ := List.mem_map.mp he
  rfl

theorem runBeforeList_tag (fns : List Middleware) (tag i : Nat) (ctx : Ctx) :
    ∀ e ∈ (runBeforeList fns tag i ctx).1, ∀ t, evTag e = some t → t = tag := by
  induction fns generalizing i ctx with
  | nil => intro e he; simp [runBeforeList] at he
  | cons fn rest ih =>
      intro e he t ht
      simp only [runBeforeList] at he
      cases ho : (fn ctx).out with
      | error err =>
          simp only [ho, List.mem_cons] at he
          rcases he with rfl | he
          · have hd : evTag (Ev.beforeMw tag i) = some tag := rfl
            rw [hd] at ht
            exact (Option.some.inj ht).symm
          · rw [userEvs_tag he] at ht; cases ht
      | ok v =>
          simp only [ho] at he
          by_cases hv : jsTruthy v = true
          · rw [if_pos hv] at he
            simp only [List.mem_cons] at he
            rcases he with rfl | he
            · have hd : evTag (Ev.beforeMw tag i) = some tag := rfl
              rw [hd] at ht
              exact (Option.some.inj ht).symm
            · rw [userEvs_tag he] at ht; cases ht
          · rw [if_neg hv] at he
            simp only [List.mem_cons, List.mem_append] at he
            rcases he with (rfl | he) | he
            · have hd : evTag (Ev.beforeMw tag i) = some tag := rfl
              rw [hd] at ht
              exact (Option.some.inj ht).symm
            · rw [userEvs_tag he] at ht; cases ht
            · exact ih (i + 1) (fn ctx).ctx e he t ht

theorem runAfterList_tag (fns : List Middleware) (tag i : Nat) (ctx : Ctx) :
    ∀ e ∈ (runAfterList fns tag i ctx).1, ∀ t, evTag e = some t → t = tag := by
  induction fns generalizing i ctx with
  | nil => intro e he; simp [runAfterList] at he
  | cons fn rest ih =>
      intro e he t ht
      simp only [runAfterList] at he
      cases ho : (fn ctx).out with
      | error err =>
          simp only [ho, List.mem_cons] at he
          rcases he with rfl | he
          · have hd : evTag (Ev.afterMw tag i) = some tag := rfl
            rw [hd] at ht
            exact (Option.some.inj ht).symm
          · rw [userEvs_tag he] at ht; cases ht
      | ok v =>
          simp only [ho] at he
          by_cases hv : jsTruthy v = true
          · rw [if_pos hv] at he
            simp only [List.mem_cons] at he
            rcases he with rfl | he
            · have hd : evTag (Ev.afterMw tag i) = some tag := rfl
              rw [hd] at ht
              exact (Option.some.inj ht).symm
            · rw [userEvs_tag he] at ht; cases ht
          · rw [if_neg hv] at he
            simp only [List.mem_cons, List.mem_append] at he
            rcases he with (rfl | he) | he
            · have hd : evTag (Ev.afterMw tag i) = some tag := rfl
              rw [hd] at ht
              exact (Option.some.inj ht).symm
            · rw [userEvs_tag he] at ht; cases ht
            · exact ih (i + 1) (fn ctx).ctx e he t ht

theorem runErrorList_tag (fns : List ErrorHandler) (tag i : Nat) (ctx : Ctx)
    (err : Err) :
    ∀ e ∈ (runErrorList fns tag i ctx err).1, ∀ t, evTag e = some t → t = tag := by
  induction fns generalizing i ctx with
  | nil => intro e he; simp [runErrorList] at he
  | cons fn rest ih =>
      intro e he t ht
      simp only [runErrorList] at he
      cases ho : (fn err ctx).out with
      | error e2 =>
          simp only [ho, List.mem_cons] at he
          rcases he with rfl | he
          · have hd : evTag (Ev.errorMw tag i) = some tag := rfl
            rw [hd] at ht
            exact (Option.some.inj ht).symm
          · rw [userEvs_tag he] at ht; cases ht
      | ok v =>
          simp only [ho] at he
          by_cases hv : jsTruthy v = true
          · rw [if_pos hv] at he
            simp only [List.mem_cons] at he
            rcases he with rfl | he
            · have hd : evTag (Ev.errorMw tag i) = some tag := rfl
              rw [hd] at ht
              exact (Option.some.inj ht).symm
            · rw [userEvs_tag he] at ht; cases ht
          · rw [if_neg hv] at he
            simp only [List.mem_cons, List.mem_append] at he
            rcases he with (rfl | he) | he
            · have hd : evTag (Ev.errorMw tag i) = some tag := rfl
              rw [hd] at ht
              exact (Option.some.inj ht).symm
            · rw [userEvs_tag he] at ht; cases ht
            · exact ih (i + 1) (fn err ctx).ctx e he t ht

theorem runHooks_tag (kind : HookName) (fns : List Hook) (i : Nat) (ctx : Ctx) :
    ∀ e ∈ (runHooks kind fns i ctx).1, evTag e = none := by
  induction fns generalizing i ctx with
  | nil => intro e he; simp [runHooks] at he
  | cons fn rest ih =>
      intro e he
      simp only [runHooks] at he
      cases ho : (fn ctx).out with
      | error err =>
          simp only [ho, List.mem_cons, List.mem_append] at he
          rcases he with (rfl | he) | he
          · rfl
          · exact userEvs_tag he
          · exact ih (i + 1) (fn ctx).ctx e he
      | ok v =>
          simp only [ho] at he
          by_cases hv : jsTruthy v = true
          · rw [if_pos hv] at he
            simp only [List.mem_cons] at he
            rcases he with rfl | he
            · rfl
            · exact userEvs_tag he
          · rw [if_neg hv] at he
            simp only [List.mem_cons, List.mem_append] at he
            rcases he with (rfl | he) | he
            · rfl
            · exact userEvs_tag he
            · exact ih (i + 1) (fn ctx).ctx e he

theorem tryBodyCore_tag (hooks : HookRecord) (c : Command) (idx : Nat)
    (ctx : Ctx) :
    ∀ e ∈ (tryBodyCore hooks c idx ctx).1, ∀ t, evTag e = some t → t = idx := by
  intro e he t ht
  unfold tryBodyCore at he
  set b := c.middleware.executeBefore idx ctx with hbdef
  have hbtag : ∀ e ∈ b.1, ∀ t, evTag e = some t → t = idx := by
    rw [hbdef]
    exact runBeforeList_tag c.middleware.beforeHandle idx 0 ctx
  cases hb : b.2.2 with
  | error err =>
      simp only [hb] at he
      exact hbtag e he t ht
  | ok ov =>
      cases ov with
      | some v =>
          simp only [hb] at he
          cases v <;> simp only [List.mem_append, List.mem_singleton] at he
          case vstr s =>
            rcases he with he | rfl
            · exact hbtag e he t ht
            · cases ht
          all_goals exact hbtag e he t ht
      | none =>
          simp only [hb] at he
          set o := c.handler b.2.1 with hodef
          cases hh : o.out with
          | error err =>
              simp only [hh, List.mem_append, List.mem_cons] at he
              rcases he with he | rfl | he
              · exact hbtag e he t ht
              · have hd : evTag (Ev.handlerRun idx) = some idx := rfl
                rw [hd] at ht
                exact (Option.some.inj ht).symm
              · rw [userEvs_tag he] at ht; cases ht
          | ok result =>
              simp only [hh] at he
              set a := c.middleware.executeAfter idx { o.ctx with result := result } result with hadef
              have hatag : ∀ e ∈ a.1, ∀ t, evTag e = some t → t = idx := by
                rw [hadef]
                exact runAfterList_tag c.middleware.afterHandle idx 0 _
              cases ha : a.2.2 with
              | error err =>
                  simp only [ha, List.mem_append, List.mem_cons] at he
                  rcases he with (he | rfl | he) | he
                  · exact hbtag e he t ht
                  · have hd : evTag (Ev.handlerRun idx) = some idx := rfl
                    rw [hd] at ht
                    exact (Option.some.inj ht).symm
                  · rw [userEvs_tag he] at ht; cases ht
                  · exact hatag e he t ht
              | ok ov2 =>
                  simp only [ha, List.mem_append, List.mem_cons] at he
                  rcases he with (((he | rfl | he) | he) | he) | he
                  · exact hbtag e he t ht
                  · have hd : evTag (Ev.handlerRun idx) = some idx := rfl
                    rw [hd] at ht
                    exact (Option.some.inj ht).symm
                  · rw [userEvs_tag he] at ht; cases ht
                  · exact hatag e he t ht
                  · cases result <;>
                      simp only [List.mem_ite_nil_right, List.not_mem_nil,
                        List.mem_singleton] at he
                    rw [he.2] at ht
                    simp [evTag] at ht
                  · rw [runHooks_tag .afterResponse hooks.afterResponse 0 _ e he] at ht
                    cases ht

theorem tryBody_tag (hooks : HookRecord) (c : Command) (idx : Nat)
    (ctx : Ctx) :
    ∀ e ∈ (tryBody hooks c idx ctx).1, ∀ t, evTag e = some t → t = idx := by
  intro e he t ht
  unfold tryBody at he
  cases hargs : c.args with
  | none =>
      simp only [hargs] at he
      exact tryBodyCore_tag hooks c idx ctx e he t ht
  | some a =>
      simp only [hargs] at he
      cases hp : a.parse ctx.params with
      | error iss => simp only [hp] at he; simp at he
      | ok parsed =>
          simp only [hp] at he
          exact tryBodyCore_tag hooks c idx _ e he t ht

theorem runMatched_tag (hooks : HookRecord) (c : Command) (idx : Nat)
    (ctx : Ctx) :
    ∀ e ∈ (runMatched hooks c idx ctx).1, ∀ t, evTag e = some t → t = idx := by
  intro e he t ht
  unfold runMatched at he
  cases htb : (tryBody hooks c idx ctx).2.2 with
  | none =>
      simp only [htb] at he
      exact tryBody_tag hooks c idx ctx e he t ht
  | some err =>
      simp only [htb] at he
      cases hr : (c.middleware.executeError idx (tryBody hooks c idx ctx).2.1 err).2.2 with
      | ok v =>
          simp only [hr, List.mem_append, List.mem_cons] at he
          rcases he with he | rfl | he
          · exact tryBody_tag hooks c idx ctx e he t ht
          · have hd : evTag (Ev.errCaught idx) = some idx := rfl
            rw [hd] at ht
            exact (Option.some.inj ht).symm
          · exact runErrorList_tag c.middleware.error idx 0 _ err e he t ht
      | error e2 =>
          simp only [hr, List.mem_append, List.mem_cons] at he
          rcases he with he | rfl | he
          · exact tryBody_tag hooks c idx ctx e he t ht
          · have hd : evTag (Ev.errCaught idx) = some idx := rfl
            rw [hd] at ht
            exact (Option.some.inj ht).symm
          · exact runErrorList_tag c.middleware.error idx 0 _ err e he t ht

theorem runCmds_tags (hooks : HookRecord) (cs : List Command) (idx : Nat)
    (ctx : Ctx) (body : String) (raw : JVal) :
    ∃ j, ∀ e ∈ (runCmds hooks cs idx ctx body raw).1,
      ∀ t, evTag e = some t → t = j := by
  induction cs generalizing idx ctx with
  | nil => exact ⟨0, by intro e he; simp [runCmds] at he⟩
  | cons c rest ih =>
      by_cases hm : cmdMatches c body raw = true
      · rw [runCmds_cons_match hooks rest idx ctx hm]
        exact ⟨idx, runMatched_tag hooks c idx _⟩
      · rw [runCmds_cons_nomatch hooks rest idx ctx (Bool.not_eq_true _ ▸ hm)]
        exact ih (idx + 1) ctx

theorem runCmds_skip_head {body : String} {raw : JVal}
    (hooks : HookRecord) (pre cs : List Command) (idx : Nat) (ctx : Ctx)
    (hpre : ∀ c' ∈ pre, cmdMatches c' body raw = false) :
    runCmds hooks (pre ++ cs) idx ctx body raw =
      runCmds hooks cs (idx + pre.length) ctx body raw := by
  induction pre generalizing idx with
  | nil => simp
  | cons a pre ih =>
      have ha := hpre a (List.mem_cons_self a pre)
      simp only [List.cons_append]
      rw [runCmds_cons_nomatch hooks _ idx ctx ha]
      rw [ih (idx + 1) (fun c' hc' => hpre c' (List.mem_cons_of_mem a hc'))]
      congr 1
      simp only [List.length_cons]
      omega

theorem matchStep_snd_match {c : Command} {body : String} {pat : CompiledPat}
    {groups : List (String × JVal)} (ctx : Ctx) (raw : JVal)
    (hpat : c.pattern = some pat) (hexec : regexExec pat body = some groups) :
    (matchStep c ctx body raw).2 =
      { ctx with params := .vobj (dispatchParams c groups) } := by
  simp [matchStep, hpat, hexec]

theorem runErrorList_ok (fns : List ErrorHandler) (tag i : Nat) (ctx : Ctx)
    (err : Err)
    (h : ∀ eh ∈ fns, ∀ e ctx', ((eh e ctx').out).isOk = true) :
    ((runErrorList fns tag i ctx err).2.2).isOk = true := by
  induction fns generalizing i ctx with
  | nil => simp [runErrorList, internalErrorSentinel, Except.isOk, Except.toBool]
  | cons fn rest ih =>
      have hfn := h fn (List.mem_cons_self fn rest) err ctx
      simp only [runErrorList]
      cases ho : (fn err ctx).out with
      | error e2 => rw [ho] at hfn; cases hfn
      | ok v =>
          simp only [ho]
          by_cases hv : jsTruthy v = true
          · rw [if_pos hv]
            simp [Except.isOk, Except.toBool]
          · rw [if_neg hv]
            exact ih (i + 1) (fn err ctx).ctx
              (fun eh he e ctx' => h eh (List.mem_cons_of_mem fn he) e ctx')

theorem runErrorList_no_handlerRun (fns : List ErrorHandler) (tag i : Nat)
    (ctx : Ctx) (err : Err) (j : Nat) :
    Ev.handlerRun j ∉ (runErrorList fns tag i ctx err).1 := by
  induction fns generalizing i ctx with
  | nil => simp [runErrorList]
  | cons fn rest ih =>
      intro he
      simp only [runErrorList] at he
      cases ho : (fn err ctx).out with
      | error e2 =>
          simp only [ho, List.mem_cons] at he
          rcases he with he | he
          · cases he
          · obtain ⟨s, _, hs⟩ := List.mem_map.mp he; cases hs
      | ok v =>
          simp only [ho] at he
          by_cases hv : jsTruthy v = true
          · rw [if_pos hv] at he
            simp only [List.mem_cons] at he
            rcases he with he | he
            · cases he
            · obtain ⟨s, _, hs⟩ := List.mem_map.mp he; cases hs
          · rw [if_neg hv] at he
            simp only [List.mem_cons, List.mem_append] at he
            rcases he with (he | he) | he
            · cases he
            · obtain ⟨s, _, hs⟩ := List.mem_map.mp he; cases hs
            · exact ih (i + 1) (fn err ctx).ctx he

/-! ## Claim theorems -/

/-- C1: for every inbound message, `handle` tests the commands in
registration order and executes at most one of them: once the first
matching command is processed (whether its handler succeeds or its error
is handled), dispatch stops without evaluating any remaining command,
even one that would also match (dropping everything after the first
match does not change the outcome); every engine event of one dispatch
is tagged with a single command index; and if no command matches, the
command loop contributes no events, no reply and no error. -/
theorem dispatch_first_match_stops :
    (∀ (y : Yabai) (body : String) (raw : JVal) (pre : List Command)
        (c : Command) (post : List Command),
        y.sock = true →
        y.commands = pre ++ c :: post →
        (∀ c' ∈ pre, cmdMatches c' body raw = false) →
        cmdMatches c body raw = true →
        y.handle ⟨body, raw⟩ =
          Yabai.handle { y with commands := pre ++ [c] } ⟨body, raw⟩) ∧
    (∀ (hooks : HookRecord) (cs : List Command) (idx : Nat) (ctx : Ctx)
        (body : String) (raw : JVal),
        (∀ c ∈ cs, cmdMatches c body raw = false) →
        runCmds hooks cs idx ctx body raw = ([], ctx, .ok ())) ∧
    (∀ (hooks : HookRecord) (cs : List Command) (idx : Nat) (ctx : Ctx)
        (body : String) (raw : JVal),
        ∃ j, ∀ e ∈ (runCmds hooks cs idx ctx body raw).1,
          ∀ t, evTag e = some t → t = j) := by
  refine ⟨?_, ?_, ?_⟩
  · intro y body raw pre c post hsock hcmds hpre hc
    simp only [Yabai.handle, hsock, hcmds]
    rw [runCmds_stop y.hooks pre c post 0 _ hpre hc]
  · exact fun hooks cs idx ctx body raw h => runCmds_no_match hooks cs idx ctx h
  · exact fun hooks cs idx ctx body raw => runCmds_tags hooks cs idx ctx body raw

/-- A pattern command replying with a fixed text, used by concrete
dispatch scenarios. -/
def exCmd (pattern reply : String) : Command :=
  { originalPattern := some (.str pattern)
    pattern := some (compilePattern "" none (.str pattern))
    handler := fun ctx => ⟨[], ctx, .ok (.vstr reply)⟩ }

/-- A bot with two commands both matching the body `"hi"`. -/
def exBotTwo : Yabai :=
  { prefixStack := [""], commands := [exCmd "hi" "one", exCmd "hi" "two"]
    sock := true }

theorem dispatch_first_match_stops_witness :
    exBotTwo.handle ⟨"hi", .vnull⟩ =
      Yabai.handle { exBotTwo with commands := [exCmd "hi" "one"] } ⟨"hi", .vnull⟩ ∧
    runCmds {} [exCmd "hi" "one"] 0 (initCtx .vnull) "nope" .vnull =
      ([], initCtx .vnull, .ok ()) := by
  constructor
  · exact dispatch_first_match_stops.1 exBotTwo "hi" .vnull []
      (exCmd "hi" "one") [exCmd "hi" "two"] rfl rfl
      (by intro c hc; cases hc) rfl
  · exact dispatch_first_match_stops.2.1 {} [exCmd "hi" "one"] 0
      (initCtx .vnull) "nope" .vnull
      (by intro c hc; rw [List.mem_singleton] at hc; subst hc; rfl)

/-- The instance state right after `group` pushes the composed prefix
(the state the callback receives, and the state the snapshot captures). -/
def groupPushed (y : Yabai) (pre sep : String) : Yabai :=
  { y with prefixStack :=
      joinNonEmpty sep [if y.currentPref ≠ "" then y.currentPref else "", pre] ::
        y.prefixStack }

theorem group_eq (y : Yabai) (pre sep : String)
    (fn : Yabai → Except ConfigError Yabai) :
    y.group pre fn sep =
      match fn (groupPushed y pre sep) with
      | .error e => .error e
      | .ok y2 => .ok (y2.restoreState (groupPushed y pre sep).createStateSnapshot) := rfl

/-- C2: `group` restores the hook lists and the global middleware engine
to their pre-call state for every callback, and commands registered
inside the callback persist — but, because the snapshot is taken after
the composed prefix is pushed, the push itself is never undone:
`currentPrefix` after `group` returns is the composed prefix, not the
pre-call prefix.  The claimed identity of `currentPrefix` fails on the
code: on a fresh instance (prefix `""`), `group("admin", fn)` with a
no-op callback leaves `currentPrefix = "admin"`. -/
theorem group_restores_hooks_middleware_not_prefix :
    (∀ (y : Yabai) (pre sep : String) (fn : Yabai → Except ConfigError Yabai)
        (g : Yabai),
        y.group pre fn sep = .ok g →
        g.middleware = y.middleware ∧ g.hooks = y.hooks ∧
        g.prefixStack = (groupPushed y pre sep).prefixStack ∧
        ∃ y2, fn (groupPushed y pre sep) = .ok y2 ∧ g.commands = y2.commands) ∧
    ((Yabai.init {}).currentPref = "" ∧
      ((Yabai.init {}).group "admin" Except.ok).toOption.map Yabai.currentPref =
        some "admin") := by
  constructor
  · intro y pre sep fn g hg
    rw [group_eq] at hg
    cases hfn : fn (groupPushed y pre sep) with
    | error e => rw [hfn] at hg; cases hg
    | ok y2 =>
        rw [hfn] at hg
        injection hg with h
        subst h
        exact ⟨rfl, rfl, rfl, y2, rfl, rfl⟩
  · exact ⟨rfl, rfl⟩

theorem group_restores_hooks_middleware_not_prefix_witness :
    ∃ g, (Yabai.init {}).group "admin" Except.ok " " = .ok g ∧
      g.middleware = (Yabai.init {}).middleware ∧
      g.hooks = (Yabai.init {}).hooks ∧
      g.prefixStack = (groupPushed (Yabai.init {}) "admin" " ").prefixStack := by
  refine ⟨groupPushed (Yabai.init {}) "admin" " ", rfl, ?_⟩
  have h := group_restores_hooks_middleware_not_prefix.1 (Yabai.init {})
    "admin" " " Except.ok (groupPushed (Yabai.init {}) "admin" " ") rfl
  exact ⟨h.1, h.2.1, h.2.2.1⟩

/-- C3: when the first matching command carries an args schema and
`schema.parse` of the captured parameters throws, the error is delivered
to that command's error middleware (the dispatcher catches it and
invokes `executeError`, visible as the `errCaught` event), the command's
handler is never invoked, no further command is tried (dropping the
commands after the matching one does not change `handle`'s outcome), and
the error is not re-raised out of `handle` (given the command's error
handlers themselves return rather than throw). -/
theorem schema_failure_routes_to_error_mw :
    ∀ (y : Yabai) (body : String) (raw : JVal) (pre : List Command)
      (c : Command) (post : List Command) (pat : CompiledPat)
      (groups : List (String × JVal)) (a : Schema) (iss : List Issue),
      y.sock = true →
      y.commands = pre ++ c :: post →
      (∀ c' ∈ pre, cmdMatches c' body raw = false) →
      c.pattern = some pat →
      regexExec pat body = some groups →
      c.args = some a →
      a.parse (.vobj (dispatchParams c groups)) = .error iss →
      (∀ eh ∈ c.middleware.error, ∀ e ctx', ((eh e ctx').out).isOk = true) →
      (∀ (hooks : HookRecord) (idx : Nat) (ctx : Ctx),
        (∀ i, Ev.handlerRun i ∉ (runCmds hooks (pre ++ c :: post) idx ctx body raw).1) ∧
        Ev.errCaught (idx + pre.length) ∈
          (runCmds hooks (pre ++ c :: post) idx ctx body raw).1 ∧
        (runCmds hooks (pre ++ c :: post) idx ctx body raw).2.2 = .ok ()) ∧
      (y.handle ⟨body, raw⟩).res = .ok () ∧
      y.handle ⟨body, raw⟩ =
        Yabai.handle { y with commands := pre ++ [c] } ⟨body, raw⟩ := by
  intro y body raw pre c post pat groups a iss hsock hcmds hpre hpat hexec
    hargs hparse herrs
  have hmatch : cmdMatches c body raw = true := by
    simp [cmdMatches, hpat, hexec]
  have hrun : ∀ (hooks : HookRecord) (idx : Nat) (ctx : Ctx),
      runCmds hooks (pre ++ c :: post) idx ctx body raw =
        (Ev.errCaught (idx + pre.length) ::
          (c.middleware.executeError (idx + pre.length)
            { ctx with params := .vobj (dispatchParams c groups) }
            (.validation iss)).1,
         (c.middleware.executeError (idx + pre.length)
            { ctx with params := .vobj (dispatchParams c groups) }
            (.validation iss)).2.1,
         .ok ()) := by
    intro hooks idx ctx
    rw [runCmds_skip_head hooks pre (c :: post) idx ctx hpre]
    rw [runCmds_cons_match hooks post (idx + pre.length) ctx hmatch]
    rw [matchStep_snd_match ctx raw hpat hexec]
    have htb : tryBody hooks c (idx + pre.length)
        { ctx with params := .vobj (dispatchParams c groups) } =
        ([], { ctx with params := .vobj (dispatchParams c groups) },
          some (.validation iss)) := by
      simp [tryBody, hargs, hparse]
    unfold runMatched
    rw [htb]
    have hok := runErrorList_ok c.middleware.error (idx + pre.length) 0
      { ctx with params := .vobj (dispatchParams c groups) }
      (.validation iss) herrs
    cases hr : (c.middleware.executeError (idx + pre.length)
        { ctx with params := .vobj (dispatchParams c groups) }
        (.validation iss)).2.2 with
    | ok v => simp [hr]
    | error e2 =>
        rw [show (c.middleware.executeError (idx + pre.length)
            { ctx with params := .vobj (dispatchParams c groups) }
            (.validation iss)) = runErrorList c.middleware.error
            (idx + pre.length) 0
            { ctx with params := .vobj (dispatchParams c groups) }
            (.validation iss) from rfl] at hr
        rw [hr] at hok
        cases hok
  refine ⟨?_, ?_, ?_⟩
  · intro hooks idx ctx
    rw [hrun hooks idx ctx]
    refine ⟨?_, List.mem_cons_self _ _, rfl⟩
    intro i hi
    simp only [List.mem_cons] at hi
    rcases hi with hi | hi
    · cases hi
    · exact runErrorList_no_handlerRun c.middleware.error (idx + pre.length) 0
        _ (.validation iss) i hi
  · simp [Yabai.handle, hsock, hcmds, hrun]
  · simp only [Yabai.handle, hsock, hcmds]
    rw [runCmds_stop y.hooks pre c post 0 _ hpre hmatch]

/-- The numeric two-parameter schema of the `"sum :a :b"` example. -/
def sumSchema : Schema := .obj (ofShape [("a", .num), ("b", .num)]) true

/-- An error handler replying with a fixed validation message. -/
def sumErrHandler : ErrorHandler :=
  fun _ ctx => ⟨[], ctx, .ok (.vstr "Validation error")⟩

/-- The `"sum :a :b"` command with numeric schema and one error
handler. -/
def sumCmd : Command :=
  { originalPattern := some (.str "sum :a :b")
    pattern := some (compilePattern "" (some sumSchema) (.str "sum :a :b"))
    handler := fun ctx => ⟨[], ctx, .ok .vundef⟩
    args := some sumSchema
    middleware := { error := [sumErrHandler] } }

theorem schema_failure_routes_to_error_mw_witness :
    (∀ i, Ev.handlerRun i ∉ (runCmds {} [sumCmd] 0 (initCtx .vnull) "sum a b" .vnull).1) ∧
    Ev.errCaught 0 ∈ (runCmds {} [sumCmd] 0 (initCtx .vnull) "sum a b" .vnull).1 ∧
    (runCmds {} [sumCmd] 0 (initCtx .vnull) "sum a b" .vnull).2.2 = .ok () := by
  have h := schema_failure_routes_to_error_mw
    { prefixStack := [""], commands := [sumCmd], sock := true }
    "sum a b" .vnull [] sumCmd []
    (compilePattern "" (some sumSchema) (.str "sum :a :b"))
    [("a", .vstr "a"), ("b", .vstr "b")] sumSchema
    [⟨"Expected a number", [.k "a"]⟩, ⟨"Expected a number", [.k "b"]⟩]
    rfl rfl (by intro c hc; cases hc) rfl rfl rfl rfl
    (by intro eh he e ctx'
        rw [show sumCmd.middleware.error = [sumErrHandler] from rfl] at he
        rw [List.mem_singleton] at he
        subst he
        rfl)
  have h0 := h.1 {} 0 (initCtx .vnull)
  exact ⟨h0.1, h0.2.1, h0.2.2⟩

theorem fov_seen :
    ∀ (l2 : List (String × Schema)) (j : String) (t : Schema)
      (l3 : List (String × Schema)),
      isOptionalish t = false →
      ∃ key, firstOrderViolation (l2 ++ ((j, t) :: l3)) true = some key := by
  intro l2
  induction l2 with
  | nil =>
      intro j t l3 ht
      refine ⟨j, ?_⟩
      simp [firstOrderViolation, ht]
  | cons p l2 ih =>
      intro j t l3 ht
      obtain ⟨k0, s0⟩ := p
      by_cases hs0 : isOptionalish s0 = true
      · obtain ⟨key, hkey⟩ := ih j t l3 ht
        refine ⟨key, ?_⟩
        simp only [List.cons_append]
        rw [firstOrderViolation, if_pos hs0]
        exact hkey
      · refine ⟨k0, ?_⟩
        simp only [List.cons_append]
        rw [firstOrderViolation, if_neg hs0, if_pos rfl]

theorem fov_main :
    ∀ (l1 : List (String × Schema)) (seen : Bool) (k : String) (s : Schema)
      (l2 : List (String × Schema)) (j : String) (t : Schema)
      (l3 : List (String × Schema)),
      isOptionalish s = true → isOptionalish t = false →
      ∃ key,
        firstOrderViolation (l1 ++ ((k, s) :: (l2 ++ ((j, t) :: l3)))) seen =
          some key := by
  intro l1
  induction l1 with
  | nil =>
      intro seen k s l2 j t l3 hs ht
      obtain ⟨key, hkey⟩ := fov_seen l2 j t l3 ht
      refine ⟨key, ?_⟩
      simp only [List.nil_append]
      rw [firstOrderViolation, if_pos hs]
      exact hkey
  | cons p l1 ih =>
      intro seen k s l2 j t l3 hs ht
      obtain ⟨k0, s0⟩ := p
      by_cases hs0 : isOptionalish s0 = true
      · obtain ⟨key, hkey⟩ := ih true k s l2 j t l3 hs ht
        refine ⟨key, ?_⟩
        simp only [List.cons_append]
        rw [firstOrderViolation, if_pos hs0]
        exact hkey
      · cases seen with
        | true =>
            refine ⟨k0, ?_⟩
            simp only [List.cons_append]
            rw [firstOrderViolation, if_neg hs0, if_pos rfl]
        | false =>
            obtain ⟨key, hkey⟩ := ih false k s l2 j t l3 hs ht
            refine ⟨key, ?_⟩
            simp only [List.cons_append]
            rw [firstOrderViolation, if_neg hs0, if_neg (by simp)]
            exact hkey

/-- An object schema whose required field `b` follows the optional field
`a` (the ordering the registration check rejects). -/
def violSchema : Schema :=
  .obj (ofShape [("a", .opt (.str none none)), ("b", .str none none)]) true

/-- A command carrying the violating schema, built directly (bypassing
`cmd`) to exercise dispatch. -/
def violCmd : Command :=
  { originalPattern := some (.str "x :a :b")
    pattern := some (compilePattern "" (some violSchema) (.str "x :a :b"))
    handler := fun ctx => ⟨[], ctx, .ok .vundef⟩
    args := some violSchema }

/-- C4: whenever the resolved args schema of a `cmd` call exposes an
object shape in which a required (non-optional/default/nullable) field
appears after an optional/defaulted/nullable one, the `cmd` call itself
returns the configuration error synchronously — no command is
registered, so the check necessarily happens before any dispatch; and
the check does not exist at dispatch time: a command carrying such a
schema (built directly) dispatches normally, its handler runs and no
error arises. -/
theorem cmd_rejects_required_after_optional :
    (∀ (y : Yabai) (pattern : PatSrc) (a : Schema) (handler : Handler)
        (options : CmdOptions) (shape : Schema)
        (l1 : List (String × Schema)) (k : String) (s : Schema)
        (l2 : List (String × Schema)) (j : String) (t : Schema)
        (l3 : List (String × Schema)),
        a.defShape = some shape →
        shapeToList shape = l1 ++ ((k, s) :: (l2 ++ ((j, t) :: l3))) →
        isOptionalish s = true → isOptionalish t = false →
        ∃ msg, y.cmd pattern (some a) handler options = .error msg) ∧
    ((runCmds {} [violCmd] 0 (initCtx .vnull) "x 1 2" .vnull).1 =
        [Ev.handlerRun 0] ∧
      (runCmds {} [violCmd] 0 (initCtx .vnull) "x 1 2" .vnull).2.2 = .ok ()) := by
  constructor
  · intro y pattern a handler options shape l1 k s l2 j t l3 hshape hlist hs ht
    obtain ⟨key, hkey⟩ := fov_main l1 false k s l2 j t l3 hs ht
    refine ⟨⟨"Invalid args schema: property " ++ key ++
      " is required but follows an optional/default/nullable property"⟩, ?_⟩
    have hcheck : checkShapeOrder (some a) = some key := by
      simp [checkShapeOrder, hshape, hlist, hkey]
    simp [Yabai.cmd, hcheck]
  · exact ⟨rfl, rfl⟩

theorem cmd_rejects_required_after_optional_witness :
    ∃ msg, (Yabai.init {}).cmd (.str "x :a :b") (some violSchema)
      (fun ctx => ⟨[], ctx, .ok .vundef⟩) {} = .error msg := by
  exact cmd_rejects_required_after_optional.1 (Yabai.init {}) (.str "x :a :b")
    violSchema (fun ctx => ⟨[], ctx, .ok .vundef⟩) {}
    (ofShape [("a", .opt (.str none none)), ("b", .str none none)])
    [] "a" (.opt (.str none none)) [] "b" (.str none none) []
    rfl rfl rfl rfl

theorem capsOf_append (ps qs : List Piece) :
    capsOf (ps ++ qs) = capsOf ps ++ capsOf qs := by
  simp [capsOf]

theorem compileSeg_append_last (args : Option Schema) :
    ∀ (xs : List String) (part : String) (first : Bool),
      compileSeg args first (xs ++ [part]) =
        compileMid args first xs ++
          segPieces args (if xs.isEmpty then first else false) true part := by
  intro xs
  induction xs with
  | nil => intro part first; simp [compileSeg, compileMid]
  | cons x xs ih =>
      intro part first
      cases xs with
      | nil => simp [compileSeg, compileMid]
      | cons y ys =>
          have h1 : compileSeg args first ((x :: y :: ys) ++ [part]) =
              segPieces args first false x ++
                compileSeg args false ((y :: ys) ++ [part]) := rfl
          rw [h1, ih part false, ← List.append_assoc]
          rfl

theorem segPieces_last_caps (args : Option Schema) (first : Bool)
    (part : String) (hdata : part.data.head? = some ':') :
    capsOf (segPieces args first true part) = [(paramNameOf part, true)] := by
  unfold segPieces paramNameOf
  rw [if_pos hdata]
  by_cases hq : part.data.tail.getLast? = some '?' <;> cases first <;>
    simp only [hq, if_true, if_false, ite_true, ite_false, Bool.true_or,
      Bool.false_or, decide_True, decide_False] <;>
    by_cases hs : schemaFieldOptional args
      (String.mk (if part.data.tail.getLast? = some '?' then
        part.data.tail.dropLast else part.data.tail)) = true <;>
    simp_all [capsOf, capsOfAtom]

theorem segPieces_mid_caps (args : Option Schema) (first : Bool)
    (part : String) :
    ∀ pr ∈ capsOf (segPieces args first false part), pr.2 = false := by
  intro pr hpr
  unfold segPieces at hpr
  by_cases hdata : part.data.head? = some ':'
  · rw [if_pos hdata] at hpr
    revert hpr
    by_cases hq : part.data.tail.getLast? = some '?' <;> cases first <;>
      simp only [hq, if_true, if_false, ite_true, ite_false, Bool.true_or,
        Bool.false_or, decide_True, decide_False] <;>
      by_cases hs : schemaFieldOptional args
        (String.mk (if part.data.tail.getLast? = some '?' then
          part.data.tail.dropLast else part.data.tail)) = true <;>
      simp_all [capsOf, capsOfAtom]
  · rw [if_neg hdata] at hpr
    revert hpr
    cases first <;> simp [capsOf, capsOfAtom]

theorem compileMid_caps_word (args : Option Schema) :
    ∀ (xs : List String) (first : Bool),
      ∀ pr ∈ capsOf (compileMid args first xs), pr.2 = false := by
  intro xs
  induction xs with
  | nil => intro first pr hpr; simp [compileMid, capsOf] at hpr
  | cons x xs ih =>
      intro first pr hpr
      rw [show compileMid args first (x :: xs) =
        segPieces args first false x ++ compileMid args false xs from rfl,
        capsOf_append, List.mem_append] at hpr
      rcases hpr with hpr | hpr
      · exact segPieces_mid_caps args first x pr hpr
      · exact ih false pr hpr

theorem escapeRegExp_empty_iff (s : String) : escapeRegExp s = "" ↔ s = "" := by
  constructor
  · intro h
    cases hd : s.data with
    | nil => cases s; simp_all
    | cons c cs =>
        exfalso
        unfold escapeRegExp at h
        rw [hd] at h
        have hflat : ((c :: cs).flatMap fun c =>
            if regexSpecials.contains c then [Char.ofNat 92, c] else [c]) = [] := by
          have := congrArg String.data h
          simpa using this
        rw [List.flatMap_cons] at hflat
        have h1 := (List.append_eq_nil.mp hflat).1
        split at h1 <;> simp at h1
  · intro h; subst h; rfl

/-- The object schema of the `"weather :name"` example: a single nullable
string field. -/
def weatherSchema : Schema :=
  .obj (ofShape [("name", .nullable (.str none none))]) true

/-- C5: in a compiled string pattern the named segment in last position
captures with the greedy `(?<name>.+)` while every non-last named
segment captures with the non-whitespace `(?<name>[^\s]+)`; a named
segment that is optional (explicit `?` or a schema field that is
optional/defaulted/nullable) compiles to one non-capturing optional
group wrapping its separator and its capture, rendered `(?:...)?`; the
compiled source is anchored `^...$` with the escaped prefix joined to
the pattern body by a `\s+` separator exactly when both are non-empty
(and the escaped prefix is empty exactly when the prefix is); and
pattern `"echo :text"` dispatched against body `"echo hello world"`
captures `text = "hello world"`. -/
theorem pattern_compiler_shape :
    (∀ (args : Option Schema) (first : Bool) (xs : List String) (part : String),
        part.data.head? = some ':' →
        capsOf (compileSeg args first (xs ++ [part])) =
          capsOf (compileMid args first xs) ++ [(paramNameOf part, true)]) ∧
    (∀ (args : Option Schema) (first : Bool) (xs : List String),
        ∀ pr ∈ capsOf (compileMid args first xs), pr.2 = false) ∧
    (∀ name, renderAtom (.capGreedy name) = "(?<" ++ name ++ ">.+)" ∧
        renderAtom (.capWord name) = "(?<" ++ name ++ ">[^\\s]+)") ∧
    (∀ (args : Option Schema) (first isLast : Bool) (part : String),
        part.data.head? = some ':' →
        (explicitQOf part || schemaFieldOptional args (paramNameOf part)) = true →
        segPieces args first isLast part =
          [.optGroup ((if first then [] else [Atom.sepWS]) ++
            [if isLast then Atom.capGreedy (paramNameOf part)
             else Atom.capWord (paramNameOf part)])] ∧
        ∀ atoms, renderPiece (.optGroup atoms) = "(?:" ++ renderAtoms atoms ++ ")?") ∧
    (∀ (pre : String) (args : Option Schema) (pattern : String),
        (compilePattern pre args (.str pattern)).src =
          "^" ++ escapeRegExp pre ++
            (if escapeRegExp pre ≠ "" ∧
                renderPieces (compileSeg args true (splitWS pattern)) ≠ ""
             then "\\s+" else "") ++
            renderPieces (compileSeg args true (splitWS pattern)) ++ "$" ∧
        (escapeRegExp pre = "" ↔ pre = "")) ∧
    regexExec (compilePattern "" none (.str "echo :text")) "echo hello world" =
      some [("text", .vstr "hello world")] := by
  refine ⟨?_, ?_, ?_, ?_, ?_, ?_⟩
  · intro args first xs part hdata
    rw [compileSeg_append_last, capsOf_append,
      segPieces_last_caps args _ part hdata]
  · exact fun args first xs => compileMid_caps_word args xs first
  · exact fun name => ⟨rfl, rfl⟩
  · intro args first isLast part hdata hopt
    refine ⟨?_, fun atoms => rfl⟩
    simp only [explicitQOf, paramNameOf] at hopt
    unfold segPieces
    rw [if_pos hdata, if_pos hopt]
    rfl
  · exact fun pre args pattern => ⟨rfl, escapeRegExp_empty_iff pre⟩
  · rfl

theorem pattern_compiler_shape_witness :
    capsOf (compileSeg none true (["echo"] ++ [":text"])) =
      capsOf (compileMid none true ["echo"]) ++ [(paramNameOf ":text", true)] ∧
    segPieces (some weatherSchema) false true ":name" =
      [.optGroup ((if false then [] else [Atom.sepWS]) ++
        [if true then Atom.capGreedy (paramNameOf ":name")
         else Atom.capWord (paramNameOf ":name")])] := by
  constructor
  · exact pattern_compiler_shape.1 none true ["echo"] ":text" rfl
  · exact (pattern_compiler_shape.2.2.2.1 (some weatherSchema) false true
      ":name" rfl rfl).1

theorem jsGet_jsSet_self (params : List (String × JVal)) (key : String)
    (v : JVal) : jsGet (jsSet params key v) key = v := by
  induction params with
  | nil => simp [jsSet, jsGet]
  | cons p rest ih =>
      obtain ⟨k0, w⟩ := p
      by_cases hk : k0 = key
      · subst hk; simp [jsSet, jsGet]
      · simp [jsSet, jsGet, hk, ih]

theorem jsGet_jsSet_other (params : List (String × JVal)) (key key' : String)
    (v : JVal) (h : key ≠ key') :
    jsGet (jsSet params key v) key' = jsGet params key' := by
  induction params with
  | nil => simp [jsSet, jsGet, h]
  | cons p rest ih =>
      obtain ⟨k0, w⟩ := p
      by_cases hk : k0 = key
      · subst hk; simp [jsSet, jsGet, h]
      · simp [jsSet, jsGet, hk, ih]

theorem fillNullable_cons (k0 : String) (s0 : Schema)
    (rest : List (String × Schema)) (params : List (String × JVal)) :
    fillNullable ((k0, s0) :: rest) params =
      fillNullable rest
        (if isUndef (jsGet params k0) && s0.defNullable
         then jsSet params k0 .vnull else params) := by
  cases hv : jsGet params k0 <;> cases hn : s0.defNullable <;>
    simp [fillNullable, hv, hn, isUndef]

theorem fillNullable_preserves (shapeL : List (String × Schema))
    (params : List (String × JVal)) (key : String)
    (h : jsGet params key ≠ .vundef) :
    jsGet (fillNullable shapeL params) key = jsGet params key := by
  induction shapeL generalizing params with
  | nil => rfl
  | cons p rest ih =>
      obtain ⟨k0, s0⟩ := p
      rw [fillNullable_cons]
      by_cases hcond : (isUndef (jsGet params k0) && s0.defNullable) = true
      · rw [if_pos hcond]
        have hk0 : k0 ≠ key := by
          intro hkk; subst hkk
          exact h ((isUndef_iff _).mp (Bool.and_elim_left hcond))
        rw [ih (jsSet params k0 .vnull)
          (by rw [jsGet_jsSet_other params k0 key _ hk0]; exact h)]
        exact jsGet_jsSet_other params k0 key _ hk0
      · rw [if_neg hcond]
        exact ih params h

theorem fillNullable_sets_null :
    ∀ (shapeL : List (String × Schema)) (params : List (String × JVal))
      (key : String) (s : Schema),
      shapeL.lookup key = some s → s.defNullable = true →
      jsGet params key = .vundef →
      jsGet (fillNullable shapeL params) key = .vnull := by
  intro shapeL
  induction shapeL with
  | nil => intro params key s hl; cases hl
  | cons p rest ih =>
      intro params key s hl hn hu
      obtain ⟨k0, s0⟩ := p
      rw [fillNullable_cons]
      by_cases hk : k0 = key
      · subst hk
        have hs : s0 = s := by simpa [List.lookup] using hl
        subst hs
        rw [if_pos (by rw [hu, hn]; rfl)]
        rw [fillNullable_preserves rest _ k0
          (by rw [jsGet_jsSet_self]; simp)]
        exact jsGet_jsSet_self params k0 .vnull
      · have hk' : key ≠ k0 := fun hkk => hk hkk.symm
        have hb : (key == k0) = false := beq_eq_false_iff_ne.mpr hk'
        have hl' : rest.lookup key = some s := by
          simp only [List.lookup, hb] at hl
          exact hl
        by_cases hcond : (isUndef (jsGet params k0) && s0.defNullable) = true
        · rw [if_pos hcond]
          exact ih (jsSet params k0 .vnull) key s hl' hn
            (by rw [jsGet_jsSet_other params k0 key _ hk]; exact hu)
        · rw [if_neg hcond]
          exact ih params key s hl' hn hu

/-- The `"weather :name"` command: nullable `name` field, handler
returning `ctx.params.name`. -/
def weatherCmd : Command :=
  { originalPattern := some (.str "weather :name")
    pattern := some (compilePattern "" (some weatherSchema) (.str "weather :name"))
    handler := fun ctx => ⟨[], ctx, .ok (jsGet (asObjFields ctx.params) "name")⟩
    args := some weatherSchema }

/-- C6: for a matched pattern command whose object args schema flags a
field nullable, an absent capture for that field is replaced by `null`
in `ctx.params` before `schema.parse` runs: the parameter record the
dispatcher builds (and hands to `parse`) maps every nullable-flagged,
absent-capture field to `null`; and concretely, `"weather :name"` with
nullable `name`, dispatched with body `"weather"`, reaches the handler
with `params.name === null`. -/
theorem nullable_fill_before_parse :
    (∀ (shapeL : List (String × Schema)) (params : List (String × JVal))
        (key : String) (s : Schema),
        shapeL.lookup key = some s → s.defNullable = true →
        jsGet params key = .vundef →
        jsGet (fillNullable shapeL params) key = .vnull) ∧
    (∀ (c : Command) (a shape : Schema) (groups : List (String × JVal)),
        c.args = some a → a.defShape = some shape →
        dispatchParams c groups = fillNullable (shapeToList shape) groups) ∧
    (dispatchParams weatherCmd [("name", .vundef)] = [("name", .vnull)] ∧
      (runCmds {} [weatherCmd] 0 (initCtx .vnull) "weather" .vnull).2.1.result =
        .vnull ∧
      (runCmds {} [weatherCmd] 0 (initCtx .vnull) "weather" .vnull).2.2 =
        .ok ()) := by
  refine ⟨fillNullable_sets_null, ?_, rfl, rfl, rfl⟩
  intro c a shape groups hargs hshape
  simp [dispatchParams, hargs, hshape]

theorem nullable_fill_before_parse_witness :
    jsGet (fillNullable [("name", Schema.nullable (.str none none))]
      [("name", .vundef)]) "name" = .vnull := by
  exact nullable_fill_before_parse.1 [("name", .nullable (.str none none))]
    [("name", .vundef)] "name" (.nullable (.str none none)) rfl rfl rfl

theorem runCmds_congr {h1 h2 : HookRecord}
    (haf : h1.afterResponse = h2.afterResponse) :
    ∀ (cs : List Command) (idx : Nat) (ctx : Ctx) (body : String) (raw : JVal),
      runCmds h1 cs idx ctx body raw = runCmds h2 cs idx ctx body raw := by
  have hm : ∀ c idx ctx, runMatched h1 c idx ctx = runMatched h2 c idx ctx := by
    intro c idx ctx
    unfold runMatched tryBody tryBodyCore
    rw [haf]
  intro cs
  induction cs with
  | nil => intro idx ctx body raw; rfl
  | cons c rest ih =>
      intro idx ctx body raw
      simp only [runCmds]
      rw [hm c idx (matchStep c ctx body raw).2,
        ih (idx + 1) (matchStep c ctx body raw).2 body raw]

theorem handle_unfold (y : Yabai) (msg : InMsg) (h : y.sock = true) :
    y.handle msg =
      ⟨(runHooks .request y.hooks.request 0 (initCtx msg.raw)).1 ++
        (runHooks .parse y.hooks.parse 0
          (runHooks .request y.hooks.request 0 (initCtx msg.raw)).2.1).1 ++
        (runHooks .transform y.hooks.transform 0
          (runHooks .parse y.hooks.parse 0
            (runHooks .request y.hooks.request 0 (initCtx msg.raw)).2.1).2.1).1 ++
        (runCmds y.hooks y.commands 0
          (runHooks .transform y.hooks.transform 0
            (runHooks .parse y.hooks.parse 0
              (runHooks .request y.hooks.request 0 (initCtx msg.raw)).2.1).2.1).2.1
          msg.body msg.raw).1,
       (runCmds y.hooks y.commands 0
          (runHooks .transform y.hooks.transform 0
            (runHooks .parse y.hooks.parse 0
              (runHooks .request y.hooks.request 0 (initCtx msg.raw)).2.1).2.1).2.1
          msg.body msg.raw).2.1,
       (runCmds y.hooks y.commands 0
          (runHooks .transform y.hooks.transform 0
            (runHooks .parse y.hooks.parse 0
              (runHooks .request y.hooks.request 0 (initCtx msg.raw)).2.1).2.1).2.1
          msg.body msg.raw).2.2⟩ := by
  simp only [Yabai.handle, h]
  rfl

/-- A hook returning the truthy number `1` without touching the
context. -/
def truthyHook : Hook := fun ctx => ⟨[], ctx, .ok (.vnum 1)⟩

/-- A hook returning `undefined` without touching the context. -/
def secondHook : Hook := fun ctx => ⟨[], ctx, .ok .vundef⟩

/-- A bot with two registered `request` hooks, the first returning a
truthy value. -/
def twoHookBot : Yabai :=
  { prefixStack := [""], hooks := { request := [truthyHook, secondHook] }
    sock := true }

/-- C7 (counterexample): with two `request` hooks registered and the
first returning a truthy value, the second registered hook does not run
during dispatch — refuting "every registered hook still runs". -/
theorem hook_truthy_skips_remaining_counterexample :
    Ev.hookRun .request 1 ∉ (twoHookBot.handle ⟨"x", .vnull⟩).evs ∧
    (twoHookBot.handle ⟨"x", .vnull⟩).evs = [Ev.hookRun .request 0] := by
  refine ⟨?_, rfl⟩
  intro h
  rw [show (twoHookBot.handle ⟨"x", .vnull⟩).evs = [Ev.hookRun .request 0]
    from rfl] at h
  simp at h

/-- C7 (amended): during dispatch the `request`, `parse` and `transform`
hooks run in that order before command matching, and their results are
discarded by `handle`; a truthy return value from a hook does not stop
dispatch — the command loop still runs and the overall outcome is as if
the remaining hooks of that kind were not registered — but within one
hook kind the first truthy return does short-circuit the remaining
hooks of that kind (they are skipped). -/
theorem hooks_order_and_within_kind_shortcircuit :
    (∀ (y : Yabai) (msg : InMsg), y.sock = true →
        y.handle msg =
          ⟨(runHooks .request y.hooks.request 0 (initCtx msg.raw)).1 ++
            (runHooks .parse y.hooks.parse 0
              (runHooks .request y.hooks.request 0 (initCtx msg.raw)).2.1).1 ++
            (runHooks .transform y.hooks.transform 0
              (runHooks .parse y.hooks.parse 0
                (runHooks .request y.hooks.request 0 (initCtx msg.raw)).2.1).2.1).1 ++
            (runCmds y.hooks y.commands 0
              (runHooks .transform y.hooks.transform 0
                (runHooks .parse y.hooks.parse 0
                  (runHooks .request y.hooks.request 0 (initCtx msg.raw)).2.1).2.1).2.1
              msg.body msg.raw).1,
           (runCmds y.hooks y.commands 0
              (runHooks .transform y.hooks.transform 0
                (runHooks .parse y.hooks.parse 0
                  (runHooks .request y.hooks.request 0 (initCtx msg.raw)).2.1).2.1).2.1
              msg.body msg.raw).2.1,
           (runCmds y.hooks y.commands 0
              (runHooks .transform y.hooks.transform 0
                (runHooks .parse y.hooks.parse 0
                  (runHooks .request y.hooks.request 0 (initCtx msg.raw)).2.1).2.1).2.1
              msg.body msg.raw).2.2⟩) ∧
    (∀ (y : Yabai) (msg : InMsg) (v : JVal) (rest : List Hook),
        y.sock = true → jsTruthy v = true →
        Yabai.handle
            { y with hooks := { y.hooks with request := pureHook v :: rest } }
            msg =
          ⟨Ev.hookRun .request 0 ::
            (Yabai.handle { y with hooks := { y.hooks with request := [] } } msg).evs,
           (Yabai.handle { y with hooks := { y.hooks with request := [] } } msg).ctx,
           (Yabai.handle { y with hooks := { y.hooks with request := [] } } msg).res⟩) := by
  constructor
  · exact handle_unfold
  · intro y msg v rest hsock hv
    have hreq : runHooks HookName.request (pureHook v :: rest) 0 (initCtx msg.raw) =
        ([Ev.hookRun .request 0], initCtx msg.raw, some v) := by
      simp [runHooks, pureHook, hv, userEvs]
    rw [handle_unfold { y with hooks := { y.hooks with request := pureHook v :: rest } } msg hsock,
      handle_unfold { y with hooks := { y.hooks with request := [] } } msg hsock]
    simp only [hreq]
    rw [runCmds_congr
      (show ({ y.hooks with request := pureHook v :: rest } : HookRecord).afterResponse =
        ({ y.hooks with request := [] } : HookRecord).afterResponse from rfl)]
    simp [runHooks]

theorem hooks_order_and_within_kind_shortcircuit_witness :
    twoHookBot.handle ⟨"x", .vnull⟩ =
      ⟨(runHooks .request twoHookBot.hooks.request 0 (initCtx .vnull)).1 ++
        (runHooks .parse twoHookBot.hooks.parse 0
          (runHooks .request twoHookBot.hooks.request 0 (initCtx .vnull)).2.1).1 ++
        (runHooks .transform twoHookBot.hooks.transform 0
          (runHooks .parse twoHookBot.hooks.parse 0
            (runHooks .request twoHookBot.hooks.request 0 (initCtx .vnull)).2.1).2.1).1 ++
        (runCmds twoHookBot.hooks twoHookBot.commands 0
          (runHooks .transform twoHookBot.hooks.transform 0
            (runHooks .parse twoHookBot.hooks.parse 0
              (runHooks .request twoHookBot.hooks.request 0 (initCtx .vnull)).2.1).2.1).2.1
          "x" .vnull).1,
       (runCmds twoHookBot.hooks twoHookBot.commands 0
          (runHooks .transform twoHookBot.hooks.transform 0
            (runHooks .parse twoHookBot.hooks.parse 0
              (runHooks .request twoHookBot.hooks.request 0 (initCtx .vnull)).2.1).2.1).2.1
          "x" .vnull).2.1,
       (runCmds twoHookBot.hooks twoHookBot.commands 0
          (runHooks .transform twoHookBot.hooks.transform 0
            (runHooks .parse twoHookBot.hooks.parse 0
              (runHooks .request twoHookBot.hooks.request 0 (initCtx .vnull)).2.1).2.1).2.1
          "x" .vnull).2.2⟩ := by
  exact hooks_order_and_within_kind_shortcircuit.1 twoHookBot ⟨"x", .vnull⟩ rfl

theorem runErrorList_fallback (fns : List ErrorHandler) (tag i : Nat)
    (ctx : Ctx) (err : Err)
    (h : ∀ eh ∈ fns, ∀ e' ctx', ∃ v, (eh e' ctx').out = .ok v ∧ jsTruthy v = false) :
    (runErrorList fns tag i ctx err).2.2 = .ok internalErrorSentinel := by
  induction fns generalizing i ctx with
  | nil => rfl
  | cons fn rest ih =>
      obtain ⟨v, hv, hvf⟩ := h fn (List.mem_cons_self fn rest) err ctx
      simp only [runErrorList, hv, hvf]
      exact ih (i + 1) (fn err ctx).ctx
        (fun eh he e' ctx' => h eh (List.mem_cons_of_mem fn he) e' ctx')

theorem runMatched_res_ok (hooks : HookRecord) (c : Command) (idx : Nat)
    (ctx : Ctx)
    (h : ∀ eh ∈ c.middleware.error, ∀ e ctx', ((eh e ctx').out).isOk = true) :
    (runMatched hooks c idx ctx).2.2 = .ok () := by
  cases htb : (tryBody hooks c idx ctx).2.2 with
  | none => simp only [runMatched, htb]
  | some e =>
      have hok := runErrorList_ok c.middleware.error idx 0
        (tryBody hooks c idx ctx).2.1 e h
      cases hr : (c.middleware.executeError idx (tryBody hooks c idx ctx).2.1 e).2.2 with
      | ok v => simp only [runMatched, htb, hr]
      | error e2 =>
          rw [show c.middleware.executeError idx (tryBody hooks c idx ctx).2.1 e =
            runErrorList c.middleware.error idx 0 (tryBody hooks c idx ctx).2.1 e
            from rfl] at hr
          rw [hr] at hok
          cases hok

theorem runCmds_res_ok {body : String} {raw : JVal} (hooks : HookRecord) :
    ∀ (cs : List Command) (idx : Nat) (ctx : Ctx),
      (∀ c ∈ cs, ∀ eh ∈ c.middleware.error, ∀ e ctx',
        ((eh e ctx').out).isOk = true) →
      (runCmds hooks cs idx ctx body raw).2.2 = .ok () := by
  intro cs
  induction cs with
  | nil => intro idx ctx h; rfl
  | cons c rest ih =>
      intro idx ctx h
      by_cases hm : cmdMatches c body raw = true
      · rw [runCmds_cons_match hooks rest idx ctx hm]
        exact runMatched_res_ok hooks c idx _ (h c (List.mem_cons_self c rest))
      · rw [runCmds_cons_nomatch hooks rest idx ctx (Bool.not_eq_true _ ▸ hm)]
        exact ih (idx + 1) ctx (fun c' hc' => h c' (List.mem_cons_of_mem c hc'))

/-- A command whose handler throws; it has no error middleware of its
own. -/
def throwCmd : Command :=
  { originalPattern := some (.str "boom")
    pattern := some (compilePattern "" none (.str "boom"))
    handler := fun ctx => ⟨[], ctx, .error (.user "kaboom")⟩ }

/-- C8: `handle` never throws — given that the registered error-handler
functions themselves return rather than throw, every failure of a
message's dispatch (schema validation, before/after middleware, the
handler) is caught and routed to error middleware and `handle` returns
normally; when no error handler claims the error, `executeError` falls
back to the generic `{text: "Internal server error", status: 500}`
object; and that fallback is not auto-replied: concretely, a dispatch
whose handler throws with no error middleware produces no reply event. -/
theorem handle_never_throws_and_fallback :
    (∀ (y : Yabai) (msg : InMsg),
        (∀ c ∈ y.commands, ∀ eh ∈ c.middleware.error, ∀ e ctx',
          ((eh e ctx').out).isOk = true) →
        (y.handle msg).res = .ok ()) ∧
    (∀ (engine : MiddlewareEngine) (tag : Nat) (ctx : Ctx) (e : Err),
        (∀ eh ∈ engine.error, ∀ e' ctx', ∃ v, (eh e' ctx').out = .ok v ∧
          jsTruthy v = false) →
        (engine.executeError tag ctx e).2.2 = .ok internalErrorSentinel) ∧
    ((runCmds {} [throwCmd] 0 (initCtx .vnull) "boom" .vnull).1 =
        [Ev.handlerRun 0, Ev.errCaught 0] ∧
      (runCmds {} [throwCmd] 0 (initCtx .vnull) "boom" .vnull).2.2 = .ok () ∧
      ∀ s, Ev.replied s ∉ (runCmds {} [throwCmd] 0 (initCtx .vnull) "boom" .vnull).1) := by
  refine ⟨?_, ?_, rfl, rfl, ?_⟩
  · intro y msg h
    cases hsock : y.sock with
    | false => simp [Yabai.handle, hsock]
    | true =>
        rw [handle_unfold y msg hsock]
        exact runCmds_res_ok y.hooks y.commands 0 _ h
  · intro engine tag ctx e h
    exact runErrorList_fallback engine.error tag 0 ctx e h
  · intro s hs
    rw [show (runCmds {} [throwCmd] 0 (initCtx .vnull) "boom" .vnull).1 =
      [Ev.handlerRun 0, Ev.errCaught 0] from rfl] at hs
    simp at hs

theorem handle_never_throws_and_fallback_witness :
    (exBotTwo.handle ⟨"hi", .vnull⟩).res = .ok () ∧
    ((MiddlewareEngine.empty.executeError 0 (initCtx .vnull) (.user "x")).2.2 =
      .ok internalErrorSentinel) := by
  constructor
  · refine handle_never_throws_and_fallback.1 exBotTwo ⟨"hi", .vnull⟩ ?_
    intro c hc eh he e ctx'
    rw [show exBotTwo.commands = [exCmd "hi" "one", exCmd "hi" "two"] from rfl] at hc
    simp only [List.mem_cons, List.not_mem_nil, or_false] at hc
    rcases hc with rfl | rfl <;> simp [exCmd] at he
  · refine handle_never_throws_and_fallback.2.1 MiddlewareEngine.empty 0
      (initCtx .vnull) (.user "x") ?_
    intro eh he e' ctx'
    simp [MiddlewareEngine.empty] at he

/-- `t.object(shape)`: a `YabaiObject` over the shape with the
constructor's default `strict = true`. -/
def tObject (shapeL : List (String × Schema)) : Schema :=
  .obj (ofShape shapeL) true

theorem shapeKeys_ofShape (shapeL : List (String × Schema)) :
    shapeKeys (ofShape shapeL) = shapeL.map Prod.fst := by
  induction shapeL with
  | nil => rfl
  | cons hd tl ih =>
      obtain ⟨k, s⟩ := hd
      simp [ofShape, shapeKeys, ih]

theorem parse_fcons_eq (k : String) (s rest : Schema)
    (data : List (String × JVal)) :
    Schema.parse (.fcons k s rest) (.vobj data) =
      match Schema.parse rest (.vobj data) with
      | .ok restV =>
          if (fieldIssuesOf data (k, s)).isEmpty then
            .ok (.vobj (fieldParsedOf data (k, s) ++ asObjFields restV))
          else .error (fieldIssuesOf data (k, s))
      | .error issuesRest =>
          .error (fieldIssuesOf data (k, s) ++ issuesRest) := by
  simp only [Schema.parse, asObjFields, fieldIssuesOf, fieldParsedOf]
  generalize jsGet data k = v
  generalize Schema.parse s v = pr
  generalize Schema.defOptional s = bO
  generalize Schema.defNullable s = bN
  generalize Schema.defDefault s = dD
  generalize Schema.parse rest (JVal.vobj data) = pRest
  cases v <;> cases bO <;> cases bN <;> cases dD <;> cases pr <;>
    cases pRest <;> rfl

theorem ofShape_parse_eq (shapeL : List (String × Schema))
    (data : List (String × JVal)) :
    Schema.parse (ofShape shapeL) (.vobj data) =
      if (shapeL.flatMap (fieldIssuesOf data)).isEmpty then
        .ok (.vobj (shapeL.flatMap (fieldParsedOf data)))
      else .error (shapeL.flatMap (fieldIssuesOf data)) := by
  induction shapeL with
  | nil => rfl
  | cons hd tl ih =>
      obtain ⟨k, s⟩ := hd
      have h0 : ofShape ((k, s) :: tl) = Schema.fcons k s (ofShape tl) := rfl
      have hfm : ((k, s) :: tl).flatMap (fieldIssuesOf data) =
          fieldIssuesOf data (k, s) ++ tl.flatMap (fieldIssuesOf data) := rfl
      have hfp : ((k, s) :: tl).flatMap (fieldParsedOf data) =
          fieldParsedOf data (k, s) ++ tl.flatMap (fieldParsedOf data) := rfl
      rw [h0, parse_fcons_eq k s (ofShape tl) data, ih, hfm, hfp]
      by_cases hre : (tl.flatMap (fieldIssuesOf data)).isEmpty = true
      · have hrl : tl.flatMap (fieldIssuesOf data) = [] := by simpa using hre
        by_cases hh : (fieldIssuesOf data (k, s)).isEmpty = true
        · have hhl : fieldIssuesOf data (k, s) = [] := by simpa using hh
          simp [hre, hhl, hrl, asObjFields]
        · simp [hre, hh, hrl, asObjFields]
      · have hrl : tl.flatMap (fieldIssuesOf data) ≠ [] := by simpa using hre
        simp [hre, hrl, List.isEmpty_iff, List.append_eq_nil, asObjFields]

theorem tObject_parse_eq (shapeL : List (String × Schema))
    (data : List (String × JVal)) :
    Schema.parse (tObject shapeL) (.vobj data) =
      if (unknownIssuesOf true shapeL data ++
          shapeL.flatMap (fieldIssuesOf data)).isEmpty then
        .ok (.vobj (shapeL.flatMap (fieldParsedOf data)))
      else
        .error (unknownIssuesOf true shapeL data ++
          shapeL.flatMap (fieldIssuesOf data)) := by
  have hu : unknownIssuesOf true shapeL data =
      ((data.map Prod.fst).filter
        (fun k2 => ¬ (shapeKeys (ofShape shapeL)).contains k2)).map
        (fun k2 => (⟨"Unknown property " ++ k2, [.k k2]⟩ : Issue)) := by
    simp [unknownIssuesOf, shapeKeys_ofShape]
  simp only [tObject, Schema.parse]
  rw [ofShape_parse_eq, ← hu]
  by_cases hfe : (shapeL.flatMap (fieldIssuesOf data)).isEmpty = true
  · have hfl : shapeL.flatMap (fieldIssuesOf data) = [] := by simpa using hfe
    rw [if_pos hfe]
    simp [hfl, asObjFields]
  · have hfl : shapeL.flatMap (fieldIssuesOf data) ≠ [] := by simpa using hfe
    rw [if_neg hfe]
    simp [List.isEmpty_iff, List.append_eq_nil, hfl]

theorem fieldIssuesOf_path (data : List (String × JVal)) (k : String)
    (s : Schema) :
    ∀ iss ∈ fieldIssuesOf data (k, s), ∃ p, iss.path = .k k :: p := by
  simp only [fieldIssuesOf]
  generalize jsGet data k = v
  generalize Schema.parse s v = pr
  generalize Schema.defOptional s = bO
  generalize Schema.defNullable s = bN
  cases v <;> cases bO <;> cases bN <;> cases pr <;>
    intro iss hmem <;>
    first
      | exact absurd hmem (List.not_mem_nil _)
      | (simp only [prefixIssues, List.mem_map] at hmem
         obtain ⟨iss0, h0, rfl⟩ := hmem
         exact ⟨iss0.path, rfl⟩)

theorem unknownIssuesOf_spec (shapeL : List (String × Schema))
    (data : List (String × JVal)) :
    (unknownIssuesOf true shapeL data).length =
      ((data.map Prod.fst).filter
        (fun key => ¬ (shapeL.map Prod.fst).contains key)).length ∧
    ∀ iss ∈ unknownIssuesOf true shapeL data,
      ∃ key, iss.path = [.k key] ∧
        (shapeL.map Prod.fst).contains key = false := by
  constructor
  · simp [unknownIssuesOf]
  · intro iss hmem
    rw [unknownIssuesOf, if_pos rfl] at hmem
    obtain ⟨key, hk, rfl⟩ := List.mem_map.mp hmem
    refine ⟨key, rfl, ?_⟩
    have hf := List.of_mem_filter hk
    simpa using hf

/-- C9: parsing an object against a shape evaluates every declared key
independently: the outcome is determined by concatenating, in shape
order, each key's own issue list (empty when the key parses, or its
nested issues with the key prefixed onto every path), preceded by one
issue per unknown input key in strict mode (`t.object`'s constructor
default); when the combined list is nonempty the parse fails with
exactly one error carrying all of the issues, and otherwise it returns
the object assembled from the per-key parses. -/
theorem object_parse_collects_all_issues :
    (∀ (shapeL : List (String × Schema)) (data : List (String × JVal)),
        Schema.parse (tObject shapeL) (.vobj data) =
          if (unknownIssuesOf true shapeL data ++
              shapeL.flatMap (fieldIssuesOf data)).isEmpty then
            .ok (.vobj (shapeL.flatMap (fieldParsedOf data)))
          else
            .error (unknownIssuesOf true shapeL data ++
              shapeL.flatMap (fieldIssuesOf data))) ∧
    (∀ (data : List (String × JVal)) (k : String) (s : Schema),
        ∀ iss ∈ fieldIssuesOf data (k, s), ∃ p, iss.path = .k k :: p) ∧
    (∀ (shapeL : List (String × Schema)) (data : List (String × JVal)),
        (unknownIssuesOf true shapeL data).length =
          ((data.map Prod.fst).filter
            (fun key => ¬ (shapeL.map Prod.fst).contains key)).length ∧
        ∀ iss ∈ unknownIssuesOf true shapeL data,
          ∃ key, iss.path = [.k key] ∧
            (shapeL.map Prod.fst).contains key = false) :=
  ⟨tObject_parse_eq, fieldIssuesOf_path, unknownIssuesOf_spec⟩

theorem object_parse_collects_all_issues_witness :
    Schema.parse (tObject [("a", Schema.num)])
        (.vobj [("a", JVal.vstr "x"), ("extra", JVal.vnum 1)]) =
      .error [⟨"Unknown property extra", [.k "extra"]⟩,
        ⟨"Expected a number", [.k "a"]⟩] ∧
    (∃ p, (Issue.mk "Expected a number" [PathElem.k "a"]).path =
      .k "a" :: p) := by
  constructor
  · rw [object_parse_collects_all_issues.1 [("a", Schema.num)]
      [("a", JVal.vstr "x"), ("extra", JVal.vnum 1)]]
    rfl
  · exact object_parse_collects_all_issues.2.1
      [("a", JVal.vstr "x"), ("extra", JVal.vnum 1)] "a" Schema.num
      ⟨"Expected a number", [.k "a"]⟩ (by decide)

/-- The body of the command-copy loop of `use` for a router-instance
plugin, with the plugin's scope abstracted. -/
def useStep (sc : Scope) (acc : Yabai) (c : Command) :
    Except ConfigError Yabai :=
  match c.originalPattern with
  | some op =>
      if patTruthy op then
        if sc = Scope.LOCAL then
          acc.cmd op none c.handler
            { beforeHandle := c.middleware.beforeHandle
              afterHandle := c.middleware.afterHandle
              error := c.middleware.error }
        else .ok acc
      else .ok acc
  | none => .ok acc

theorem use_inst_eq (y p : Yabai) (pre : String) :
    y.use (.inst p) pre =
      y.group pre
        (fun self => p.commands.foldlM (useStep p.config.scope) self) := rfl

/-- JavaScript truthiness of `command.originalPattern`: the copy test of
`use` (`if (command.originalPattern)`). -/
def hasTruthyPattern (c : Command) : Bool :=
  match c.originalPattern with
  | some op => patTruthy op
  | none => false

theorem currentPref_set_commands (acc : Yabai) (cs : List Command) :
    ({ acc with commands := cs } : Yabai).currentPref = acc.currentPref := rfl

theorem use_fold_commands (sc : Scope) (cs : List Command) :
    ∀ acc : Yabai,
      cs.foldlM (useStep sc) acc =
        .ok { acc with commands := acc.commands ++
          (if sc = Scope.LOCAL then
            (cs.filter hasTruthyPattern).map
              (copyCmd acc.currentPref acc.middleware)
          else []) } := by
  induction cs with
  | nil =>
      intro acc
      have h2 : (if sc = Scope.LOCAL then
          List.map (copyCmd acc.currentPref acc.middleware)
            (List.filter hasTruthyPattern []) else []) = ([] : List Command) := by
        cases sc <;> rfl
      rw [h2, List.append_nil]
      rfl
  | cons c cs ih =>
      intro acc
      rw [show (c :: cs).foldlM (useStep sc) acc =
          (useStep sc acc c) >>= (fun a2 => cs.foldlM (useStep sc) a2)
          from rfl]
      cases hco : c.originalPattern with
      | none =>
          have h1 : useStep sc acc c = .ok acc := by simp [useStep, hco]
          rw [h1, show ((Except.ok acc) >>=
              (fun a2 => cs.foldlM (useStep sc) a2)) =
              cs.foldlM (useStep sc) acc from rfl, ih acc]
          have hf : (c :: cs).filter hasTruthyPattern =
              cs.filter hasTruthyPattern := by
            simp [List.filter_cons, hasTruthyPattern, hco]
          rw [hf]
      | some op =>
          by_cases hpt : patTruthy op = true
          · by_cases hsc : sc = Scope.LOCAL
            · have h1 : useStep sc acc c =
                  .ok { acc with commands := acc.commands ++
                    [copyCmd acc.currentPref acc.middleware c] } := by
                simp [useStep, hco, hpt, hsc, copyCmd, Yabai.cmd,
                  checkShapeOrder]
              rw [h1, show ((Except.ok ({ acc with commands :=
                  acc.commands ++
                  [copyCmd acc.currentPref acc.middleware c] } : Yabai)) >>=
                  (fun a2 => cs.foldlM (useStep sc) a2)) =
                  cs.foldlM (useStep sc)
                    { acc with commands := acc.commands ++
                      [copyCmd acc.currentPref acc.middleware c] }
                  from rfl, ih _]
              have hf : (c :: cs).filter hasTruthyPattern =
                  c :: cs.filter hasTruthyPattern := by
                simp [List.filter_cons, hasTruthyPattern, hco, hpt]
              simp [hsc, hf, currentPref_set_commands]
            · have h1 : useStep sc acc c = .ok acc := by
                simp [useStep, hco, hpt, hsc]
              rw [h1, show ((Except.ok acc) >>=
                  (fun a2 => cs.foldlM (useStep sc) a2)) =
                  cs.foldlM (useStep sc) acc from rfl, ih acc]
              simp [hsc]
          · have h1 : useStep sc acc c = .ok acc := by
              simp [useStep, hco, hpt]
            rw [h1, show ((Except.ok acc) >>=
                (fun a2 => cs.foldlM (useStep sc) a2)) =
                cs.foldlM (useStep sc) acc from rfl, ih acc]
            have hf : (c :: cs).filter hasTruthyPattern =
                cs.filter hasTruthyPattern := by
              simp [List.filter_cons, hasTruthyPattern, hco, hpt]
            rw [hf]

theorem use_inst_commands (y p : Yabai) (pre : String) :
    ∃ y2, y.use (.inst p) pre = .ok y2 ∧
      y2.commands = y.commands ++
        (if p.config.scope = Scope.LOCAL then
          (p.commands.filter hasTruthyPattern).map
            (copyCmd (joinNonEmpty " "
              [if y.currentPref ≠ "" then y.currentPref else "", pre])
              y.middleware)
        else []) := by
  rw [use_inst_eq y p pre]
  simp only [Yabai.group]
  rw [use_fold_commands p.config.scope p.commands]
  refine ⟨_, rfl, ?_⟩
  simp [Yabai.restoreState, Yabai.currentPref]

theorem use_new_commands_from_local (host p : Yabai) (pre : String)
    (y2 : Yabai) (h : host.use (.inst p) pre = .ok y2) :
    ∀ c2 ∈ y2.commands, c2 ∉ host.commands →
      p.config.scope = Scope.LOCAL ∧
      ∃ c ∈ p.commands, hasTruthyPattern c = true ∧
        c2 = copyCmd (joinNonEmpty " "
          [if host.currentPref ≠ "" then host.currentPref else "", pre])
          host.middleware c := by
  obtain ⟨y2x, hx, hcmds⟩ := use_inst_commands host p pre
  rw [h] at hx
  obtain rfl : y2 = y2x := Except.ok.inj hx
  intro c2 h2 hn
  rw [hcmds] at h2
  rcases List.mem_append.mp h2 with h2 | h2
  · exact absurd h2 hn
  · by_cases hsc : p.config.scope = Scope.LOCAL
    · rw [if_pos hsc] at h2
      obtain ⟨c, hcf, rfl⟩ := List.mem_map.mp h2
      obtain ⟨hcp, hct⟩ := List.mem_filter.mp hcf
      exact ⟨hsc, c, hcp, hct, rfl⟩
    · rw [if_neg hsc] at h2
      exact absurd h2 (List.not_mem_nil _)

/-- C10: for a router-instance plugin, `use(plugin, {prefix})` succeeds
and appends to the host exactly the plugin commands that have a truthy
`originalPattern`, recompiled under the composed prefix — and only when
the plugin's scope is `local` (any other scope contributes no commands);
`hears` registers its command with no `originalPattern`, so predicate
commands are never carried over: every command that is new on the host
after `use` stems from a local-scope plugin command with a truthy
`originalPattern`. -/
theorem use_copies_only_local_pattern_commands :
    (∀ (y p : Yabai) (pre : String), ∃ y2,
        y.use (.inst p) pre = .ok y2 ∧
        y2.commands = y.commands ++
          (if p.config.scope = Scope.LOCAL then
            (p.commands.filter hasTruthyPattern).map
              (copyCmd (joinNonEmpty " "
                [if y.currentPref ≠ "" then y.currentPref else "", pre])
                y.middleware)
          else [])) ∧
    (∀ (y : Yabai) (pr : JVal → Bool) (h : Handler) (opts : CmdOptions),
        (y.hears pr h opts).commands = y.commands ++
          [{ predicate := some pr
             originalPattern := none
             pattern := none
             handler := h
             args := none
             middleware := MiddlewareEngine.mergeAll y.middleware
               { beforeHandle := opts.beforeHandle
                 afterHandle := opts.afterHandle
                 error := opts.error }
             options := opts }]) ∧
    (∀ (host p : Yabai) (pre : String) (y2 : Yabai),
        host.use (.inst p) pre = .ok y2 →
        ∀ c2 ∈ y2.commands, c2 ∉ host.commands →
          p.config.scope = Scope.LOCAL ∧
          ∃ c ∈ p.commands, hasTruthyPattern c = true ∧
            c2 = copyCmd (joinNonEmpty " "
              [if host.currentPref ≠ "" then host.currentPref else "", pre])
              host.middleware c) :=
  ⟨use_inst_commands, fun _ _ _ _ => rfl, use_new_commands_from_local⟩

/-- A plugin command registered via `cmd` (truthy string pattern). -/
def pingCmd : Command :=
  { originalPattern := some (.str "ping")
    pattern := some (compilePattern "" none (.str "ping"))
    handler := literalHandler "pong" }

/-- A plugin router with default (`local`) scope holding `pingCmd`. -/
def pingPlugin : Yabai :=
  { config := {}, commands := [pingCmd], prefixStack := [""] }

def hostBot : Yabai := Yabai.init {}

/-- The host after `use(pingPlugin)`. -/
def usedBot : Yabai :=
  match hostBot.use (.inst pingPlugin) "" with
  | .ok b => b
  | .error _ => hostBot

theorem use_copies_only_local_pattern_commands_witness :
    pingPlugin.config.scope = Scope.LOCAL ∧
    ∃ c ∈ pingPlugin.commands, hasTruthyPattern c = true ∧
      copyCmd (joinNonEmpty " "
        [if hostBot.currentPref ≠ "" then hostBot.currentPref else "", ""])
        hostBot.middleware pingCmd =
      copyCmd (joinNonEmpty " "
        [if hostBot.currentPref ≠ "" then hostBot.currentPref else "", ""])
        hostBot.middleware c :=
  use_copies_only_local_pattern_commands.2.2 hostBot pingPlugin "" usedBot rfl
    (copyCmd (joinNonEmpty " "
      [if hostBot.currentPref ≠ "" then hostBot.currentPref else "", ""])
      hostBot.middleware pingCmd)
    (by rw [show usedBot.commands =
        [copyCmd (joinNonEmpty " "
          [if hostBot.currentPref ≠ "" then hostBot.currentPref else "", ""])
          hostBot.middleware pingCmd] from rfl]
        exact List.mem_singleton.mpr rfl)
    (by rw [show hostBot.commands = ([] : List Command) from rfl]
        exact List.not_mem_nil _)

end Yab

